import Mathlib

/-!
Verification development for the resume-parsing / ATS-audit core of the
Ai-Resume repository (`backend/services/resumeParser.js`: the active
`ResumeParserService` and `ATSScannerService`, plus `pdfGenerator.js`
consumers).  Strings are modelled as `List Char`; every JS string
operation used by the code is embedded below.
-/

namespace AiResume

/-- Strings are modelled as lists of characters. -/
abbrev Str := List Char

/-- JS whitespace class (`\s`, and the class `String.prototype.trim` strips),
restricted to the ASCII whitespace characters. -/
def isWs (c : Char) : Bool :=
  c = ' ' || c = '\t' || c = '\n' || c = '\r' || c = '\x0b' || c = '\x0c'

/-- `String.prototype.trim`: strip leading and trailing whitespace. -/
def trim (s : Str) : Str :=
  ((s.dropWhile isWs).reverse.dropWhile isWs).reverse

/-- `String.prototype.includes(p)`: `p` occurs as a contiguous substring. -/
def includesB (s p : Str) : Bool :=
  s.tails.any (fun t => p.isPrefixOf t)

/-- Generic engine for `String.prototype.replace(/pat/g, repl)` with a literal
pattern: scan left to right; wherever `test` accepts the current suffix,
emit `r` and skip `len` characters; matches are found in the original
string (JS semantics), so replacement text is never rescanned.
`fuel` bounds the recursion; callers pass the string length. -/
def replaceAllG (test : Str → Bool) (len : Nat) (r : Str) : Nat → Str → Str
  | _, [] => []
  | 0, s => s
  | fuel + 1, c :: rest =>
    if test (c :: rest) then
      r ++ replaceAllG test len r fuel (List.drop len (c :: rest))
    else
      c :: replaceAllG test len r fuel rest

/-- `s.replace(/p/g, r)` for a literal, case-sensitive pattern `p`. -/
def replaceAll (p r s : Str) : Str :=
  replaceAllG (fun t => !List.isEmpty p && p.isPrefixOf t) p.length r s.length s

/-- `s.replace(/p/gi, r)` for a literal case-insensitive pattern:
`p` is given in lowercase and compared against the lowercased window. -/
def replaceAllCI (p r s : Str) : Str :=
  replaceAllG (fun t => !List.isEmpty p && decide ((t.take p.length).map Char.toLower = p))
    p.length r s.length s

/-- `text.replace(/\n{2,}/g, '\n')`: collapse every run of two or more
newlines to a single newline (parser variant). -/
def collapse2 : Str → Str
  | '\n' :: '\n' :: rest => collapse2 ('\n' :: rest)
  | c :: rest => c :: collapse2 rest
  | [] => []

/-- `text.replace(/\n{3,}/g, '\n\n')`: collapse every run of three or more
newlines to exactly two (ATS-scanner variant). -/
def collapse3 : Str → Str
  | '\n' :: '\n' :: '\n' :: rest => collapse3 ('\n' :: '\n' :: rest)
  | c :: rest => c :: collapse3 rest
  | [] => []

/-- `ResumeParserService._normalizeText` on a non-empty string: the chained
replaces `\r`→``, `Bachelorof`→`Bachelor of`, `Phone:`→`\nPhone: `,
`Email:`→` Email: `, `Linkedln:`→`LinkedIn:` (ci), `\n{2,}`→`\n`, then trim. -/
def normalizeParserCore (text : Str) : Str :=
  trim (collapse2
    (replaceAllCI ("linkedln:".data) ("LinkedIn:".data)
      (replaceAll ("Email:".data) (" Email: ".data)
        (replaceAll ("Phone:".data) ("\nPhone: ".data)
          (replaceAll ("Bachelorof".data) ("Bachelor of".data)
            (replaceAll ("\r".data) [] text))))))

/-- `ResumeParserService._normalizeText`, including the `if (!text) return ''`
falsy-input guard (empty string is falsy in JS). -/
def normalizeParser (text : Str) : Str :=
  if text = [] then [] else normalizeParserCore text

/-- `ATSScannerService._normalizeText` on a string input: duplicate-block
collapse at the midpoint, then `\r`→``, `Bachelorof`→`Bachelor of`,
`Linkedln:`→`LinkedIn:` (ci), `\n{3,}`→`\n\n`, then trim. -/
def normalizeATSCore (text : Str) : Str :=
  let half := text.length / 2
  let firstHalf := text.take half
  let secondHalf := text.drop half
  let text1 := if includesB secondHalf (firstHalf.take 100) then firstHalf else text
  trim (collapse3
    (replaceAllCI ("linkedln:".data) ("LinkedIn:".data)
      (replaceAll ("Bachelorof".data) ("Bachelor of".data)
        (replaceAll ("\r".data) [] text1))))

/-- `ATSScannerService._normalizeText` with its
`if (!text || typeof text !== 'string') return ''` guard: `none` models a
missing or non-string argument. -/
def normalizeATS (text : Option Str) : Str :=
  match text with
  | none => []
  | some s => if s = [] then [] else normalizeATSCore s

/-! ## Character classes and the regex matchers used by the services -/

/-- JS `\w` word-character class (ASCII). -/
def isWordChar (c : Char) : Bool := c.isAlphanum || c = '_'

/-- Character class `[A-Za-z0-9._%+-]` (email local part). -/
def isLocalChar (c : Char) : Bool :=
  c.isAlphanum || c = '.' || c = '_' || c = '%' || c = '+' || c = '-'

/-- Character class `[A-Za-z0-9.-]` (email domain part). -/
def isDomChar (c : Char) : Bool := c.isAlphanum || c = '.' || c = '-'

/-- After at least one domain character: recognise `[A-Za-z0-9.-]*\.[A-Za-z]{2,}`
as a prefix (continue the domain run, or close it with a literal dot and two
letters). -/
def emailDotTail : Str → Bool
  | [] => false
  | c :: rest =>
    (c = '.' && (match rest with
      | a :: b :: _ => a.isAlpha && b.isAlpha
      | _ => false)) ||
    (isDomChar c && emailDotTail rest)

/-- Recognise `[A-Za-z0-9.-]+\.[A-Za-z]{2,}` as a prefix of the input. -/
def emailAfterAt : Str → Bool
  | [] => false
  | c :: rest => isDomChar c && emailDotTail rest

/-- `/[A-Za-z0-9._%+-]+@[A-Za-z0-9.-]+\.[A-Za-z]{2,}/.test(text)`: the
auditor's email-presence test (no word boundaries).  A match exists iff some
`@` is directly preceded by a local character and followed by a valid
domain prefix. -/
def hasEmailAudit (s : Str) : Bool :=
  s.tails.any fun t =>
    match t with
    | l :: '@' :: rest => isLocalChar l && emailAfterAt rest
    | _ => false

/-- `[6-9]\d{9}` matches at the head of the input. -/
def mobileAt : Str → Bool
  | c :: rest =>
    ('6' ≤ c && c ≤ '9') && ((rest.take 9).length = 9 && (rest.take 9).all Char.isDigit)
  | [] => false

/-- `\+91[\-\s]?[6-9]\d{9}` or `\+91[6-9]\d{9}` matches at the head. -/
def plus91At (s : Str) : Bool :=
  ("+91".data).isPrefixOf s &&
    (match s.drop 3 with
     | sep :: rest => ((sep = '-' || isWs sep) && mobileAt rest) || mobileAt (sep :: rest)
     | [] => false)

/-- `\d{3}[\-.\s]\d{3}[\-.\s]\d{4}` matches at the head of the input. -/
def sepPhoneAt : Str → Bool
  | a :: b :: c :: s1 :: d :: e :: f :: s2 :: g :: h :: i :: j :: _ =>
    ([a, b, c].all Char.isDigit) && (s1 = '-' || s1 = '.' || isWs s1) &&
    ([d, e, f].all Char.isDigit) && (s2 = '-' || s2 = '.' || isWs s2) &&
    ([g, h, i, j].all Char.isDigit)
  | _ => false

/-- `ATSScannerService._checkStructure`'s phone test:
`/((\+91[\-\s]?)?[6-9]\d{9}|\d{3}[\-.\s]\d{3}[\-.\s]\d{4})/.test(text)`. -/
def hasPhoneAudit (s : Str) : Bool :=
  s.tails.any fun t => plus91At t || mobileAt t || sepPhoneAt t

/-- `[6-9]\d{9}`: match at head, returning the matched characters. -/
def mobileMatch : Str → Option Str
  | c :: rest =>
    if ('6' ≤ c && c ≤ '9') && ((rest.take 9).length = 9 && (rest.take 9).all Char.isDigit)
    then some (c :: rest.take 9) else none
  | [] => none

/-- `\+91[\-\s]?[6-9]\d{9}` at head, with the JS backtracking order for the
optional separator (greedy: with separator first). -/
def phoneWithPrefix (s : Str) : Option Str :=
  if ("+91".data).isPrefixOf s then
    match s.drop 3 with
    | sep :: rest =>
      if sep = '-' || isWs sep then
        ((mobileMatch rest).map (fun m => '+' :: '9' :: '1' :: sep :: m)) <|>
          ((mobileMatch (sep :: rest)).map (fun m => '+' :: '9' :: '1' :: m))
      else (mobileMatch (sep :: rest)).map (fun m => '+' :: '9' :: '1' :: m)
    | [] => none
  else none

/-- `ResumeParserService._extractMetadata`'s phone regex
`(\+91[\-\s]?)?[6-9]\d{9}` matched at the head of the input: the optional
group is tried first, then skipped. -/
def phoneMatchAt (s : Str) : Option Str :=
  phoneWithPrefix s <|> mobileMatch s

/-- `String.prototype.match` for a single pattern: return the leftmost match,
scanning start positions left to right. -/
def scanFirst (f : Str → Option Str) : Str → Option Str
  | [] => none
  | c :: rest => (f (c :: rest)) <|> scanFirst f rest

/-- `linkedin\.com\/in\/[\w-]+` at head (applied to lowercased text). -/
def linkedinAt (s : Str) : Option Str :=
  if ("linkedin.com/in/".data).isPrefixOf s then
    let handle := (s.drop 16).takeWhile (fun c => isWordChar c || c = '-')
    if handle = [] then none else some ("linkedin.com/in/".data ++ handle)
  else none

/-- Try a domain split of exactly `d` leading domain characters, then a
literal dot, then a maximal run of at least two letters, then a word
boundary (`\.[A-Za-z]{2,}\b`). -/
def emailDomTry (d : Nat) (rest : Str) : Option Str :=
  if (rest.take d).length = d && (rest.take d).all isDomChar then
    match rest.drop d with
    | '.' :: tl =>
      let aRun := tl.takeWhile Char.isAlpha
      if 2 ≤ aRun.length &&
          (match tl.drop aRun.length with
           | [] => true
           | n :: _ => !isWordChar n) then
        some (rest.take d ++ '.' :: aRun)
      else none
    | _ => none
  else none

/-- Backtracking search for `[A-Za-z0-9.-]+\.[A-Za-z]{2,}\b`: the greedy
`+` tries the longest domain run first, then shorter ones. -/
def emailDomSearch : Nat → Str → Option Str
  | 0, _ => none
  | d + 1, rest => emailDomTry (d + 1) rest <|> emailDomSearch d rest

/-- Match `[A-Za-z0-9.-]+\.[A-Za-z]{2,}\b` at the head of the input. -/
def emailDomMatch (rest : Str) : Option Str :=
  emailDomSearch (rest.takeWhile isDomChar).length rest

/-- Match the parser's email regex
`\b[A-Za-z0-9._%+-]+@[A-Za-z0-9.-]+\.[A-Za-z]{2,}\b` at the current
position; `prevWord` is the word-ness of the preceding character (`false`
at the string start), used for the leading `\b`. -/
def emailMatchAt (prevWord : Bool) (s : Str) : Option Str :=
  match s with
  | [] => none
  | c :: _ =>
    if prevWord != isWordChar c then
      let loc := s.takeWhile isLocalChar
      if loc = [] then none
      else
        match s.drop loc.length with
        | '@' :: rest => (emailDomMatch rest).map (fun d => loc ++ '@' :: d)
        | _ => none
    else none

/-- Leftmost-match scan for the email regex, tracking the previous
character's word-ness for the `\b` assertion. -/
def emailSearch : Bool → Str → Option Str
  | _, [] => none
  | pw, c :: rest => (emailMatchAt pw (c :: rest)) <|> emailSearch (isWordChar c) rest

/-- `text.match(emailRegex)` first match. -/
def emailMatchFirst (text : Str) : Option Str := emailSearch false text

/-! ## `ResumeParserService._extractMetadata` -/

structure ContactMetadata where
  name : Option Str
  email : Option Str
  phone : Option Str
  linkedin : Option Str
deriving DecidableEq, Repr

/-- `ResumeParserService._extractMetadata`: sets `email`, `phone` and
`linkedin` when their regexes match.  The active implementation contains no
name heuristic, so the returned object never has a `name` property
(modelled as `name := none`). -/
def extractMetadata (text : Str) : ContactMetadata :=
  { name := none
    email := emailMatchFirst text
    phone := scanFirst phoneMatchAt text
    linkedin := scanFirst linkedinAt (text.map Char.toLower) }

/-! ## ATS scanner: findings, checks, score -/

inductive Severity
  | high | medium | low
deriving DecidableEq, Repr

structure Finding where
  category : Str
  severity : Severity
  description : Str
  recommendation : Str
deriving DecidableEq, Repr

structure AtsAuditResult where
  compatibility_score : Int
  total_issues : Nat
  total_warnings : Nat
  issues : List Finding
  warnings : List Finding
  recommendations : List Str
deriving DecidableEq, Repr

/-- `ATSScannerService._checkFileFormat`.  The `fs.statSync` call sits in a
`try`/`catch`; its outcome is modelled as `Except`: `.error` is a thrown
stat (missing file), which skips the size sub-check. -/
def checkFileFormat (ext : Str) (statResult : Except Str Nat) : List Finding :=
  (if ext ∈ [".pdf".data, ".docx".data, ".doc".data, ".txt".data] then []
   else
     [⟨"File Format".data, .high, "Unsupported format: ".data ++ ext,
       "Use PDF or DOCX format".data⟩]) ++
  (match statResult with
   | .ok size =>
     if size < 500 then
       [⟨"File Size".data, .high, "File appears to be empty or too small".data,
         "Ensure resume has sufficient content".data⟩]
     else []
   | .error _ => [])

/-- `ATSScannerService._checkStructure`. -/
def checkStructure (text lowerText : Str) : List Finding :=
  (if includesB lowerText ("experience".data) || includesB lowerText ("work".data) ||
      includesB lowerText ("employment".data) then []
   else
     [⟨"Missing Section".data, .high, "No \x27Experience\x27 section found".data,
       "Add a clearly labeled \x27Professional Experience\x27 section".data⟩]) ++
  (if includesB lowerText ("education".data) || includesB lowerText ("academic".data) ||
      includesB lowerText ("university".data) || includesB lowerText ("college".data) ||
      includesB lowerText ("degree".data) then []
   else
     [⟨"Missing Section".data, .medium, "No \x27Education\x27 section found".data,
       "Add a clearly labeled \x27Education\x27 section".data⟩]) ++
  (if includesB lowerText ("skills".data) || includesB lowerText ("technologies".data) ||
      includesB lowerText ("programming".data) then []
   else
     [⟨"Missing Section".data, .medium, "No \x27Skills\x27 section found".data,
       "Add a clearly labeled \x27Skills\x27 section".data⟩]) ++
  (if hasEmailAudit text then []
   else
     [⟨"Contact Info".data, .high, "No email address found".data,
       "Include your email address in the contact section".data⟩]) ++
  (if hasPhoneAudit text then []
   else
     [⟨"Contact Info".data, .medium, "No phone number found".data,
       "Include your phone number in the contact section".data⟩])

/-- `text.split(/\s+/).filter(Boolean).length`. -/
def countWords (s : Str) : Nat :=
  ((s.splitOnP (fun c => isWs c)).filter (fun w => w ≠ [])).length

/-- `\d+x` matches at the head of the input. -/
def dxAt (t : Str) : Bool :=
  let r := t.takeWhile Char.isDigit
  !r.isEmpty && (t.drop r.length).head? = some 'x'

/-- `\$[\d,]+` matches at the head of the input. -/
def dollarAt : Str → Bool
  | '$' :: rest => !(rest.takeWhile (fun c => c.isDigit || c = ',')).isEmpty
  | _ => false

/-- `/%|\d+x|\$[\d,]+|increased|reduced|improved|delivered|launched/i.test`
(applied to already-lowercased text). -/
def hasQuantified (s : Str) : Bool :=
  s.tails.any fun t =>
    (match t with
     | '%' :: _ => true
     | _ => false) ||
    dxAt t || dollarAt t ||
    (["increased", "reduced", "improved", "delivered", "launched"].any
      (fun w => w.data.isPrefixOf t))

/-- The decorative-symbol list checked by `_checkContent`. -/
def specialCharsList : List Char := ['©', '®', '™', '★', '→', '←']

/-- `ATSScannerService._checkContent`. -/
def checkContent (lowerText : Str) : List Finding :=
  let wordCount := countWords lowerText
  (if wordCount < 150 then
     [⟨"Content Length".data, .medium,
       "Resume is short (".data ++ (Nat.repr wordCount).data ++ " words)".data,
       "Expand with more details about your experience and skills".data⟩]
   else []) ++
  (if 1200 < wordCount then
     [⟨"Content Length".data, .low,
       "Resume is long (".data ++ (Nat.repr wordCount).data ++ " words)".data,
       "Consider condensing to 1-2 pages for better ATS parsing".data⟩]
   else []) ++
  (if hasQuantified lowerText then []
   else
     [⟨"Quantified Achievements".data, .medium, "No quantified achievements found".data,
       "Add metrics like \"Improved performance by 30%\" to strengthen ATS scoring".data⟩]) ++
  (let found := specialCharsList.filter (fun c => includesB lowerText [c])
   if found ≠ [] then
     [⟨"Special Characters".data, .low,
       "Special characters found: ".data ++ found.intersperse ' ',
       "Replace with standard text equivalents".data⟩]
   else [])

/-- `ATSScannerService._calculateScore`. -/
def calculateScore (issues warnings : List Finding) (text : Str) : Int :=
  let s0 : Int := 100
  let s1 := issues.foldl (fun sc i =>
    match i.severity with
    | .high => sc - 15
    | .medium => sc - 8
    | _ => sc - 3) s0
  let s2 := warnings.foldl (fun sc w =>
    match w.severity with
    | .medium => sc - 5
    | _ => sc - 2) s1
  let s3 := if includesB text ['@'] then s2 + 5 else s2
  let s4 := if includesB (text.map Char.toLower) ("linkedin".data) then s3 + 3 else s3
  let s5 := if includesB (text.map Char.toLower) ("github".data) then s4 + 3 else s4
  let s6 := if 200 ≤ countWords text then s5 + 5 else s5
  max 0 (min 100 s6)

/-- `ATSScannerService._buildRecommendations`: push high-severity issue
recommendations, then medium-severity ones, then the first three warnings'. -/
def buildRecommendations (issues warnings : List Finding) : List Str :=
  let recs : List Str := []
  let recs := (issues.filter (fun i => decide (i.severity = .high))).foldl
    (fun acc i => acc ++ [i.recommendation]) recs
  let recs := (issues.filter (fun i => decide (i.severity = .medium))).foldl
    (fun acc i => acc ++ [i.recommendation]) recs
  let recs := (warnings.take 3).foldl (fun acc w => acc ++ [w.recommendation]) recs
  recs

/-- `ATSScannerService.scanResume`, after the extension has been read from
the file path; the file's stat outcome is an input. -/
def scanResume (ext : Str) (statResult : Except Str Nat) (resumeText : Option Str) :
    AtsAuditResult :=
  let normalizedText := normalizeATS resumeText
  let lowerText := normalizedText.map Char.toLower
  let issues := checkFileFormat ext statResult ++ checkStructure normalizedText lowerText
  let warnings := checkContent lowerText
  let score := calculateScore issues warnings normalizedText
  { compatibility_score := score
    total_issues := issues.length
    total_warnings := warnings.length
    issues := issues
    warnings := warnings
    recommendations := buildRecommendations issues warnings }

/-! ## `ResumeParserService._extractSections` -/

inductive SectionKey
  | contact_info | experience | education | skills | projects | certifications
  | summary | languages | interests
deriving DecidableEq, Repr

/-- Consume one mandatory whitespace character and any further whitespace
(`\s+`, greedy; safe because no continuation starts with whitespace). -/
def chompWs : Str → Option Str
  | c :: rest => if isWs c then some (rest.dropWhile isWs) else none
  | [] => none

/-- Consume a literal word. -/
def chompLit (w : Str) (s : Str) : Option Str :=
  if w.isPrefixOf s then some (s.drop w.length) else none

/-- Consume a literal word followed by `\s+`. -/
def litWs (w : Str) (s : Str) : Option Str := (chompLit w s).bind chompWs

/-- An optional group `(f)?` followed by continuation `k`: the pattern
matches with the group present or absent. -/
def optThen (f : Str → Option Str) (k : Str → Bool) (s : Str) : Bool :=
  k s || (match f s with
          | some r => k r
          | none => false)

/-- `/^(professional\s+)?(work\s+)?(experience|employment|history)$/i`. -/
def matchExperience (s : Str) : Bool :=
  optThen (litWs ("professional".data)) (fun s1 =>
    optThen (litWs ("work".data)) (fun s2 =>
      s2 = "experience".data || s2 = "employment".data || s2 = "history".data) s1) s

/-- `/^(education|educational\s+background|academic\s+background|qualification|degrees?)$/i`. -/
def matchEducation (s : Str) : Bool :=
  s = "education".data ||
  (match litWs ("educational".data) s with
   | some r => r = "background".data
   | none => false) ||
  (match litWs ("academic".data) s with
   | some r => r = "background".data
   | none => false) ||
  s = "qualification".data || s = "degree".data || s = "degrees".data

/-- The `\s+&\s+tools` suffix of the skills pattern. -/
def ampTools (s : Str) : Bool :=
  match ((chompWs s).bind (chompLit ("&".data))).bind chompWs with
  | some r => r = "tools".data
  | none => false

/-- `/^(technical\s+)?skills(\s+&\s+tools)?$/i`. -/
def matchSkills (s : Str) : Bool :=
  optThen (litWs ("technical".data)) (fun s1 =>
    match chompLit ("skills".data) s1 with
    | some r => r = [] || ampTools r
    | none => false) s

/-- `/^(key\s+|personal\s+|academic\s+)?projects$/i`. -/
def matchProjects (s : Str) : Bool :=
  s = "projects".data ||
  (["key", "personal", "academic"].any (fun w => litWs w.data s = some ("projects".data)))

/-- The `\s+&\s+awards?` suffix of the certifications pattern. -/
def ampAwards (s : Str) : Bool :=
  match ((chompWs s).bind (chompLit ("&".data))).bind chompWs with
  | some r => r = "award".data || r = "awards".data
  | none => false

/-- `/^(certifications?(\s+&\s+awards?)?|certificates?|awards?|achievements?|licenses?)$/i`. -/
def matchCertifications (s : Str) : Bool :=
  (match chompLit ("certifications".data) s with
   | some r => r = [] || ampAwards r
   | none => false) ||
  (match chompLit ("certification".data) s with
   | some r => r = [] || ampAwards r
   | none => false) ||
  s = "certificates".data || s = "certificate".data ||
  s = "awards".data || s = "award".data ||
  s = "achievements".data || s = "achievement".data ||
  s = "licenses".data || s = "license".data

/-- `/^(professional\s+)?(summary|profile|objective|about\s+me)$/i`. -/
def matchSummary (s : Str) : Bool :=
  optThen (litWs ("professional".data)) (fun s1 =>
    s1 = "summary".data || s1 = "profile".data || s1 = "objective".data ||
    (match litWs ("about".data) s1 with
     | some r => r = "me".data
     | none => false)) s

/-- `/^(languages?)$/i`. -/
def matchLanguages (s : Str) : Bool := s = "languages".data || s = "language".data

/-- `/^(interests?|hobbies)$/i`. -/
def matchInterests (s : Str) : Bool :=
  s = "interests".data || s = "interest".data || s = "hobbies".data

/-- The header pattern attached to each section key (`headerPatterns`);
`contact_info` has no pattern. -/
def testPattern : SectionKey → Str → Bool
  | .experience, s => matchExperience s
  | .education, s => matchEducation s
  | .skills, s => matchSkills s
  | .projects, s => matchProjects s
  | .certifications, s => matchCertifications s
  | .summary, s => matchSummary s
  | .languages, s => matchLanguages s
  | .interests, s => matchInterests s
  | .contact_info, _ => false

/-- The `Object.entries(headerPatterns)` insertion order. -/
def headerOrder : List SectionKey :=
  [.experience, .education, .skills, .projects, .certifications, .summary,
   .languages, .interests]

/-- The `for … in Object.entries(headerPatterns) { if (regex.test(clean)) { matched = key; break } }` loop. -/
def firstMatchKey (clean : Str) : Option SectionKey :=
  headerOrder.find? (fun k => testPattern k clean)

/-- `raw.toLowerCase().replace(/^[0-9.\-•\s]+/, '').replace(/[:|]/g, '').trim()`. -/
def cleanLine (raw : Str) : Str :=
  trim (((raw.map Char.toLower).dropWhile
      (fun c => c.isDigit || c = '.' || c = '-' || c = '•' || isWs c)).filter
    (fun c => !(c = ':' || c = '|')))

structure ExtractState where
  sections : List (SectionKey × Str)
  currentSection : SectionKey
  buffer : List Str
deriving DecidableEq, Repr

/-- Lookup in the sections object. -/
def assocGet (l : List (SectionKey × Str)) (k : SectionKey) : Option Str :=
  (l.find? (fun p => decide (p.1 = k))).map (fun p => p.2)

/-- Property assignment on the sections object (insertion-ordered). -/
def assocSet : List (SectionKey × Str) → SectionKey → Str → List (SectionKey × Str)
  | [], k, v => [(k, v)]
  | p :: rest, k, v => if p.1 = k then (k, v) :: rest else p :: assocSet rest k v

/-- The `saveSection` closure inside `_extractSections`: flush the buffer
into the current section's bucket, appending only when the first 50
characters of the new content are not already present. -/
def saveSection (st : ExtractState) : ExtractState :=
  if st.buffer = [] then st
  else
    let content := trim (List.intercalate ['\n'] st.buffer)
    let sections :=
      match assocGet st.sections st.currentSection with
      | none => assocSet st.sections st.currentSection content
      | some existing =>
        if includesB existing (content.take 50) then st.sections
        else assocSet st.sections st.currentSection (existing ++ '\n' :: content)
    { sections := sections, currentSection := st.currentSection, buffer := [] }

/-- One iteration of the `for (let line of lines)` loop in `_extractSections`. -/
def processLine (st : ExtractState) (line : Str) : ExtractState :=
  let raw := trim line
  if raw = [] then st
  else
    let clean := cleanLine raw
    let matched := if raw.length < 60 then firstMatchKey clean else none
    match matched with
    | some key => { saveSection st with currentSection := key }
    | none => { st with buffer := st.buffer ++ [raw] }

/-- `ResumeParserService._extractSections`. -/
def extractSections (text : Str) : List (SectionKey × Str) :=
  let lines := text.splitOn '\n'
  let final := lines.foldl processLine
    { sections := [], currentSection := .contact_info, buffer := [] }
  (saveSection final).sections

structure ParsedResume where
  raw_text : Str
  metadata : ContactMetadata
  sections : List (SectionKey × Str)
  word_count : Nat
deriving DecidableEq, Repr

/-- `ResumeParserService.parseFile` after text extraction: normalize, then
extract metadata and sections and count words. -/
def parseResume (text : Str) : ParsedResume :=
  let t := normalizeParser text
  { raw_text := t
    metadata := extractMetadata t
    sections := extractSections t
    word_count := countWords t }

/-! ## Specification-side definitions (used to compare code with the spec's words) -/

/-- Number of findings of a given severity in a list. -/
def countSev (sev : Severity) (l : List Finding) : Nat :=
  (l.filter (fun f => decide (f.severity = sev))).length

/-- The scoring rubric exactly as the specification words it: start at 100,
subtract 15/8/3 per high/medium/low issue and 5/2 per medium/low warning,
then add the four bonuses, then clamp to [0, 100]. -/
def specScoreFormula (issues warnings : List Finding) (text : Str) : Int :=
  let base : Int := 100
    - 15 * countSev .high issues - 8 * countSev .medium issues - 3 * countSev .low issues
    - 5 * countSev .medium warnings - 2 * countSev .low warnings
  let b1 := base + (if includesB text ['@'] then 5 else 0)
  let b2 := b1 + (if includesB (text.map Char.toLower) ("linkedin".data) then 3 else 0)
  let b3 := b2 + (if includesB (text.map Char.toLower) ("github".data) then 3 else 0)
  let b4 := b3 + (if 200 ≤ countWords text then 5 else 0)
  max 0 (min 100 b4)

/-- The reserved tokens that, per the specification, disqualify a line from
being a name. -/
def reservedKeywords : List Str :=
  (["summary", "profile", "objective", "skills", "experience", "education",
    "projects", "certifications", "contact", "phone", "email", "linkedin",
    "resume", "cv"]).map (fun s => s.data)

/-- The specification's "qualifying name line" predicate: 4–50 characters,
2–5 all-letter tokens separated by single spaces or periods, and not a
reserved section keyword (case-insensitively). -/
def specNameLine (l : Str) : Bool :=
  (4 ≤ l.length && l.length ≤ 50) &&
  (let toks := l.splitOnP (fun c => c = ' ' || c = '.')
   (2 ≤ toks.length && toks.length ≤ 5) &&
     toks.all (fun t => !t.isEmpty && t.all Char.isAlpha)) &&
  !(reservedKeywords.contains (l.map Char.toLower))

/-! ## Helper lemmas -/

theorem countSev_cons (sev : Severity) (f : Finding) (t : List Finding) :
    countSev sev (f :: t) = (if f.severity = sev then 1 else 0) + countSev sev t := by
  by_cases h : f.severity = sev <;>
    simp [countSev, List.filter_cons, h, Nat.add_comm]

theorem issues_foldl_eq (l : List Finding) : ∀ a : Int,
    l.foldl (fun sc i => match i.severity with
      | .high => sc - 15
      | .medium => sc - 8
      | _ => sc - 3) a
    = a - 15 * countSev .high l - 8 * countSev .medium l - 3 * countSev .low l := by
  induction l with
  | nil => intro a; simp [countSev]
  | cons f t ih =>
    intro a
    rcases hf : f.severity <;>
      simp only [List.foldl_cons, hf, ih, countSev_cons, if_pos, if_neg,
        reduceCtorEq, if_true, if_false, Nat.cast_add, Nat.cast_ofNat,
        Nat.cast_one, Nat.cast_zero] <;>
      push_cast <;> ring

theorem warnings_foldl_eq (l : List Finding) (hl : ∀ w ∈ l, w.severity ≠ .high) :
    ∀ a : Int,
    l.foldl (fun sc w => match w.severity with
      | .medium => sc - 5
      | _ => sc - 2) a
    = a - 5 * countSev .medium l - 2 * countSev .low l := by
  induction l with
  | nil => intro a; simp [countSev]
  | cons f t ih =>
    intro a
    have hf' : f.severity ≠ .high := hl f (by simp)
    have iht := ih (fun w hw => hl w (by simp [hw]))
    rcases hf : f.severity
    · exact absurd hf hf'
    · simp only [List.foldl_cons, hf, iht, countSev_cons, reduceCtorEq,
        if_true, if_false]
      push_cast
      ring
    · simp only [List.foldl_cons, hf, iht, countSev_cons, reduceCtorEq,
        if_true, if_false]
      push_cast
      ring

theorem foldl_push_recs (l : List Finding) : ∀ acc : List Str,
    l.foldl (fun a x => a ++ [x.recommendation]) acc = acc ++ l.map Finding.recommendation := by
  induction l with
  | nil => intro acc; simp
  | cons f t ih => intro acc; simp [ih]

theorem orElse_isSome {α : Type} (a b : Option α) :
    (a <|> b).isSome = (a.isSome || b.isSome) := by
  cases a <;> simp

theorem find?_eq_head?_filter {α : Type} (p : α → Bool) :
    ∀ l : List α, l.find? p = (l.filter p).head? := by
  intro l
  induction l with
  | nil => rfl
  | cons a t ih =>
    cases h : p a with
    | true => simp [List.find?_cons, h, List.filter_cons]
    | false =>
      rw [List.find?_cons, h, List.filter_cons, h]
      simpa using ih

theorem saveSection_buffer (st : ExtractState) : (saveSection st).buffer = [] := by
  unfold saveSection
  by_cases h : st.buffer = [] <;> simp [h]

theorem mobileMatch_isSome (t : Str) : (mobileMatch t).isSome = mobileAt t := by
  cases t with
  | nil => rfl
  | cons c rest =>
    simp only [mobileMatch, mobileAt]
    split <;> simp_all

theorem phoneWithPrefix_isSome (t : Str) : (phoneWithPrefix t).isSome = plus91At t := by
  unfold phoneWithPrefix plus91At
  by_cases hpre : ("+91".data).isPrefixOf t = true
  · simp only [hpre, if_true, Bool.true_and]
    rcases hd : t.drop 3 with _ | ⟨sep, rest⟩
    · simp
    · dsimp only
      by_cases hsep : (decide (sep = '-') || isWs sep) = true
      · simp [hsep, orElse_isSome, mobileMatch_isSome]
      · simp [hsep, orElse_isSome, mobileMatch_isSome]
  · simp only [Bool.not_eq_true] at hpre
    simp [hpre]

theorem phoneMatchAt_isSome_imp (t : Str) (h : (phoneMatchAt t).isSome = true) :
    (plus91At t || mobileAt t) = true := by
  unfold phoneMatchAt at h
  rw [orElse_isSome, phoneWithPrefix_isSome, mobileMatch_isSome] at h
  exact h

theorem scanFirst_isSome_imp (f : Str → Option Str) (g : Str → Bool)
    (hfg : ∀ t, (f t).isSome = true → g t = true) :
    ∀ s : Str, (scanFirst f s).isSome = true → s.tails.any g = true := by
  intro s
  induction s with
  | nil => intro h; exact absurd h (by simp [scanFirst])
  | cons c rest ih =>
    intro h
    unfold scanFirst at h
    rcases hf : f (c :: rest) with _ | v
    · rw [hf] at h
      simp only [Option.none_orElse] at h
      have := ih h
      simp only [List.tails_cons, List.any_cons]
      simp [this]
    · have : g (c :: rest) = true := hfg _ (by simp [hf])
      simp only [List.tails_cons, List.any_cons]
      simp [this]

/-! ## Claim theorems -/

/-- C4: for every file-extension string, every stat outcome (including a
missing file) and every resume text (including absent), the audit's
`compatibility_score` lies in [0, 100]. -/
theorem c4_score_bounds (ext : Str) (statResult : Except Str Nat) (resumeText : Option Str) :
    0 ≤ (scanResume ext statResult resumeText).compatibility_score ∧
      (scanResume ext statResult resumeText).compatibility_score ≤ 100 := by
  have h : ∀ (i w : List Finding) (t : Str),
      0 ≤ calculateScore i w t ∧ calculateScore i w t ≤ 100 := by
    intro i w t
    unfold calculateScore
    refine ⟨le_max_left 0 _, max_le (by norm_num) ?_⟩
    exact min_le_left _ _
  exact h _ _ _

/-- C3: the audit score is computed by the spec's exact formula (100 minus
15/8/3 per high/medium/low issue and 5/2 per medium/low warning, plus the
@/linkedin/github/word-count bonuses, clamped to [0, 100]); stated for
warning lists without high-severity entries, which is all the auditor ever
produces. -/
theorem c3_score_formula (issues warnings : List Finding) (text : Str)
    (hw : ∀ w ∈ warnings, w.severity ≠ .high) :
    calculateScore issues warnings text = specScoreFormula issues warnings text := by
  simp only [calculateScore, specScoreFormula]
  rw [issues_foldl_eq, warnings_foldl_eq _ hw]
  split_ifs <;> push_cast <;> ring_nf

/-- Witness for C3 at a concrete input. -/
theorem c3_score_formula_witness :
    (∀ w ∈ ([] : List Finding), w.severity ≠ .high) ∧
      calculateScore [] [] ("a@b".data) = specScoreFormula [] [] ("a@b".data) :=
  ⟨by simp, c3_score_formula [] [] ("a@b".data) (by simp)⟩

/-- C8: the recommendations list is exactly the high-severity issue
recommendations, then the medium-severity ones, then the recommendations of
at most the first three warnings, with no de-duplication; low-severity
issue recommendations are never included. -/
theorem c8_recommendations (issues warnings : List Finding) :
    buildRecommendations issues warnings =
      (issues.filter (fun i => decide (i.severity = .high))).map Finding.recommendation ++
      (issues.filter (fun i => decide (i.severity = .medium))).map Finding.recommendation ++
      (warnings.take 3).map Finding.recommendation := by
  simp [buildRecommendations, foldl_push_recs]

/-- C9: the pure core is total — a thrown `statSync` (missing file) only
skips the size sub-check and is otherwise identical to a large file;
absent/non-string text normalizes to the empty string; the structurer's
pieces yield empty/default outputs on empty input; and auditing an absent
text equals auditing the empty text. -/
theorem c9_totality :
    (∀ (ext e : Str) (text : Option Str) (size : Nat), 500 ≤ size →
        scanResume ext (Except.error e) text = scanResume ext (Except.ok size) text) ∧
    normalizeATS none = [] ∧ normalizeParser [] = [] ∧
    extractMetadata [] = ⟨none, none, none, none⟩ ∧
    extractSections [] = [] ∧
    (∀ (ext : Str) (statResult : Except Str Nat),
        scanResume ext statResult none = scanResume ext statResult (some [])) := by
  refine ⟨?_, rfl, rfl, by decide, by decide, ?_⟩
  · intro ext e text size hsize
    have hff : checkFileFormat ext (Except.error e) = checkFileFormat ext (Except.ok size) := by
      unfold checkFileFormat
      have : ¬ size < 500 := by omega
      simp [this]
    unfold scanResume
    rw [hff]
  · intro ext statResult
    rfl

/-- Witness for C9 at a concrete input. -/
theorem c9_totality_witness :
    scanResume [] (Except.error []) none = scanResume [] (Except.ok 500) none :=
  c9_totality.1 [] [] none 500 (by norm_num)

/-- C10: the auditor's phone test also accepts `ddd sep ddd sep dddd`, so a
text exists that passes the auditor's phone check (no medium `Contact Info`
phone issue) while the structurer extracts no phone; conversely any text
whose phone the structurer extracts passes the auditor's phone pattern. -/
theorem c10_phone_patterns :
    (hasPhoneAudit (normalizeATS (some ("Call 555-123-4567 now".data))) = true ∧
     (⟨"Contact Info".data, .medium, "No phone number found".data,
        "Include your phone number in the contact section".data⟩ : Finding) ∉
       (scanResume (".pdf".data) (Except.ok 1000)
         (some ("Call 555-123-4567 now".data))).issues ∧
     (extractMetadata (normalizeParser ("Call 555-123-4567 now".data))).phone = none) ∧
    ∀ s : Str, ((extractMetadata s).phone).isSome = true → hasPhoneAudit s = true := by
  constructor
  · exact ⟨by decide, by decide, by decide⟩
  · intro s h
    have h' : (scanFirst phoneMatchAt s).isSome = true := h
    have := scanFirst_isSome_imp phoneMatchAt
      (fun t => plus91At t || mobileAt t) phoneMatchAt_isSome_imp s h'
    unfold hasPhoneAudit
    rw [List.any_eq_true] at this ⊢
    obtain ⟨t, ht, hg⟩ := this
    exact ⟨t, ht, by simp at hg ⊢; tauto⟩

/-- Witness for C10's universal part at a concrete input. -/
theorem c10_phone_patterns_witness :
    ((extractMetadata ("9876543210".data)).phone).isSome = true ∧
      hasPhoneAudit ("9876543210".data) = true :=
  ⟨by decide, c10_phone_patterns.2 ("9876543210".data) (by decide)⟩

/-- C7 counterexample: the claim predicts a `name` field for inputs whose
first line qualifies under the spec's name heuristic, but the active
structurer never sets one: `"John Smith"` qualifies, yet `metadata.name`
is absent. -/
theorem c7_counterexample :
    (∃ line ∈ ("John Smith\njohn@x.com".data).splitOn '\n', specNameLine line = true) ∧
      (extractMetadata ("John Smith\njohn@x.com".data)).name = none := by
  refine ⟨⟨"John Smith".data, by decide, by decide⟩, rfl⟩

/-- C7 (amended): the structurer's metadata never contains a name — the
active `_extractMetadata` only extracts email, phone and linkedin. -/
theorem c7_no_name_field (text : Str) :
    (parseResume text).metadata.name = none ∧ (extractMetadata text).name = none :=
  ⟨rfl, rfl⟩

/-- C5: header dispatch is first-match-wins in the fixed catalog order: for
any short non-blank line whose cleaned form the loop matches to key `k`,
`k` is the first key of the ordered catalog whose pattern accepts the
cleaned line, and the line is consumed as a header (the buffer is flushed
and left empty, the line's text is appended nowhere). -/
theorem c5_header_dispatch (st : ExtractState) (line : Str) (k : SectionKey)
    (h1 : trim line ≠ []) (h2 : (trim line).length < 60)
    (h3 : firstMatchKey (cleanLine (trim line)) = some k) :
    ((headerOrder.filter (fun k2 => testPattern k2 (cleanLine (trim line)))).head? = some k) ∧
      processLine st line =
        { sections := (saveSection st).sections, currentSection := k, buffer := [] } := by
  constructor
  · rw [← find?_eq_head?_filter]
    exact h3
  · unfold processLine
    rw [if_neg (by exact h1)]
    simp only [if_pos h2, h3]
    have hb := saveSection_buffer st
    cases hsave : saveSection st
    simp_all

/-! ### Length bounds for the normalization stages (claim C6) -/

theorem trim_length_le (s : Str) : (trim s).length ≤ s.length := by
  unfold trim
  calc ((s.dropWhile isWs).reverse.dropWhile isWs).reverse.length
      = ((s.dropWhile isWs).reverse.dropWhile isWs).length := List.length_reverse _
    _ ≤ (s.dropWhile isWs).reverse.length := (List.dropWhile_sublist _).length_le
    _ = (s.dropWhile isWs).length := List.length_reverse _
    _ ≤ s.length := (List.dropWhile_sublist _).length_le

theorem collapse3_length_le : ∀ s : Str, (collapse3 s).length ≤ s.length := by
  intro s
  induction s using collapse3.induct with
  | case1 rest ih =>
    rw [collapse3]
    simp only [List.length_cons] at *
    omega
  | case2 c rest h ih =>
    rw [collapse3]
    · simp only [List.length_cons]
      omega
    · exact h
  | case3 => simp [collapse3]

theorem replaceAllG_length_le (test : Str → Bool) (len : Nat) (r : Str)
    (hr : r.length ≤ len) (htest : ∀ t, test t = true → len ≤ t.length) (h1 : 1 ≤ len) :
    ∀ (fuel : Nat) (s : Str), s.length ≤ fuel →
      (replaceAllG test len r fuel s).length ≤ s.length := by
  intro fuel
  induction fuel with
  | zero =>
    intro s hs
    have hnil : s = [] := List.length_eq_zero.mp (Nat.le_zero.mp hs)
    subst hnil
    simp [replaceAllG]
  | succ n ih =>
    intro s hs
    cases s with
    | nil => simp [replaceAllG]
    | cons c rest =>
      rw [replaceAllG]
      by_cases ht : test (c :: rest) = true
      · rw [if_pos ht]
        have hlen := htest _ ht
        have hdroplen : (List.drop len (c :: rest)).length = (c :: rest).length - len :=
          List.length_drop len (c :: rest)
        have hdfuel : (List.drop len (c :: rest)).length ≤ n := by
          simp only [List.length_cons] at *
          omega
        have := ih _ hdfuel
        simp only [List.length_append, List.length_cons] at *
        omega
      · rw [if_neg ht]
        have := ih rest (by simp only [List.length_cons] at hs; omega)
        simp only [List.length_cons]
        omega

theorem replaceAllG_length_ten (test : Str → Bool) (r : Str)
    (hr : r.length = 11) (htest : ∀ t, test t = true → 10 ≤ t.length) :
    ∀ (fuel : Nat) (s : Str), s.length ≤ fuel →
      (replaceAllG test 10 r fuel s).length ≤ s.length + s.length / 10 := by
  intro fuel
  induction fuel with
  | zero =>
    intro s hs
    have hnil : s = [] := List.length_eq_zero.mp (Nat.le_zero.mp hs)
    subst hnil
    simp [replaceAllG]
  | succ n ih =>
    intro s hs
    cases s with
    | nil => simp [replaceAllG]
    | cons c rest =>
      rw [replaceAllG]
      by_cases ht : test (c :: rest) = true
      · rw [if_pos ht]
        have hlen := htest _ ht
        have hdroplen : (List.drop 10 (c :: rest)).length = (c :: rest).length - 10 :=
          List.length_drop 10 (c :: rest)
        have hdfuel : (List.drop 10 (c :: rest)).length ≤ n := by
          simp only [List.length_cons] at *
          omega
        have := ih _ hdfuel
        simp only [List.length_append, List.length_cons] at *
        omega
      · rw [if_neg ht]
        have := ih rest (by simp only [List.length_cons] at hs; omega)
        simp only [List.length_cons]
        omega

theorem replaceAll_cr_length_le (s : Str) :
    (replaceAll ("\r".data) [] s).length ≤ s.length := by
  apply replaceAllG_length_le _ _ _ (by simp) _ (by simp) s.length s le_rfl
  intro t ht
  simp only [Bool.and_eq_true] at ht
  have := List.isPrefixOf_iff_prefix.mp ht.2
  simpa using this.length_le

theorem replaceAll_bach_length_le (s : Str) :
    (replaceAll ("Bachelorof".data) ("Bachelor of".data) s).length
      ≤ s.length + s.length / 10 := by
  have h10 : ("Bachelorof".data).length = 10 := by decide
  unfold replaceAll
  rw [h10]
  apply replaceAllG_length_ten _ _ (by decide) _ s.length s le_rfl
  intro t ht
  simp only [Bool.and_eq_true] at ht
  have := List.isPrefixOf_iff_prefix.mp ht.2
  have := this.length_le
  simpa [h10] using this

theorem replaceAllCI_linkedln_length_le (s : Str) :
    (replaceAllCI ("linkedln:".data) ("LinkedIn:".data) s).length ≤ s.length := by
  apply replaceAllG_length_le _ _ _ (by decide) _ (by decide) s.length s le_rfl
  intro t ht
  simp only [Bool.and_eq_true, decide_eq_true_eq] at ht
  have hlen : min (("linkedln:".data).length) t.length = ("linkedln:".data).length := by
    simpa using congrArg List.length ht.2
  omega

/-- C6 (amended): when the code's actual duplicate-collapse guard holds —
the second half (split at the midpoint) contains the first 100 characters
of the first half — the ATS normalizer keeps only the first half, so the
result length is at most `⌊len/2⌋` plus the slack of one character per
`Bachelorof` repair (at most `⌊len/2⌋/10`). -/
theorem c6_dup_collapse_bound (text : Str)
    (h : includesB (text.drop (text.length / 2))
        ((text.take (text.length / 2)).take 100) = true) :
    (normalizeATS (some text)).length ≤ text.length / 2 + text.length / 2 / 10 := by
  by_cases hnil : text = []
  · subst hnil
    simp [normalizeATS]
  · have hhalf : (text.take (text.length / 2)).length = text.length / 2 := by
      simp [List.length_take]
      omega
    have hcalc :
        (normalizeATSCore text).length ≤ text.length / 2 + text.length / 2 / 10 := by
      unfold normalizeATSCore
      simp only [h, if_true]
      set t1 := text.take (text.length / 2) with ht1
      have l2 := replaceAll_cr_length_le t1
      have l3 := replaceAll_bach_length_le (replaceAll ("\r".data) [] t1)
      have l4 := replaceAllCI_linkedln_length_le
        (replaceAll ("Bachelorof".data) ("Bachelor of".data)
          (replaceAll ("\r".data) [] t1))
      have l5 := collapse3_length_le
        (replaceAllCI ("linkedln:".data) ("LinkedIn:".data)
          (replaceAll ("Bachelorof".data) ("Bachelor of".data)
            (replaceAll ("\r".data) [] t1)))
      have l6 := trim_length_le
        (collapse3 (replaceAllCI ("linkedln:".data) ("LinkedIn:".data)
          (replaceAll ("Bachelorof".data) ("Bachelor of".data)
            (replaceAll ("\r".data) [] t1))))
      have hdiv : (replaceAll ("\r".data) [] t1).length / 10 ≤ t1.length / 10 :=
        Nat.div_le_div_right l2
      exact le_trans l6 (by omega)
    calc (normalizeATS (some text)).length = (normalizeATSCore text).length := by
          simp [normalizeATS, hnil]
      _ ≤ _ := hcalc

set_option maxRecDepth 10000 in
/-- Witness for C6 (amended) at a concrete input: 400 repeated characters. -/
theorem c6_dup_collapse_bound_witness :
    (includesB ((List.replicate 400 'a').drop ((List.replicate 400 'a').length / 2))
        (((List.replicate 400 'a').take ((List.replicate 400 'a').length / 2)).take 100)
      = true) ∧
    (normalizeATS (some (List.replicate 400 'a'))).length ≤
      (List.replicate 400 'a').length / 2 + (List.replicate 400 'a').length / 2 / 10 :=
  ⟨by decide, c6_dup_collapse_bound (List.replicate 400 'a') (by decide)⟩

set_option maxRecDepth 10000 in
/-- C6 counterexample: the claim's hypothesis — `T = A ++ A'` with `A'`
containing the first 150 characters of `A` — does not trigger the code's
midpoint-based guard: with `A` 150 `'a'`s and `A'` those 150 `'a'`s
followed by 150 `'z'`s, nothing is discarded and the result keeps all 450
characters, far above `len(T)/2` plus any small constant. -/
theorem c6_counterexample :
    (includesB (List.replicate 150 'a' ++ List.replicate 150 'z')
        ((List.replicate 150 'a').take 150) = true) ∧
    normalizeATS (some (List.replicate 150 'a' ++
        (List.replicate 150 'a' ++ List.replicate 150 'z')))
      = List.replicate 150 'a' ++ (List.replicate 150 'a' ++ List.replicate 150 'z') ∧
    (List.replicate 150 'a' ++ (List.replicate 150 'a' ++ List.replicate 150 'z')).length
      = 450 := by
  exact ⟨by decide, by decide, by decide⟩

/-- Witness for C5 at a concrete input. -/
theorem c5_header_dispatch_witness :
    (trim ("  Skills:".data) ≠ [] ∧ (trim ("  Skills:".data)).length < 60 ∧
      firstMatchKey (cleanLine (trim ("  Skills:".data))) = some .skills) ∧
    ((headerOrder.filter
        (fun k2 => testPattern k2 (cleanLine (trim ("  Skills:".data))))).head? =
          some .skills ∧
      processLine ⟨[], .contact_info, []⟩ ("  Skills:".data) =
        { sections := (saveSection ⟨[], .contact_info, []⟩).sections,
          currentSection := .skills, buffer := [] }) :=
  ⟨⟨by decide, by decide, by decide⟩,
    c5_header_dispatch ⟨[], .contact_info, []⟩ ("  Skills:".data) .skills
      (by decide) (by decide) (by decide)⟩

/-! ## Claim C2: the section partition -/

/-- The header decision for one raw input line, as `_extractSections` makes
it: blank lines are skipped, short trimmed lines are tested against the
ordered pattern catalog. -/
def headerOfLine (line : Str) : Option SectionKey :=
  let raw := trim line
  if raw = [] then none
  else if raw.length < 60 then firstMatchKey (cleanLine raw) else none

/-- A line that is neither blank nor a header: its trimmed text becomes
section content. -/
def isContentLine (line : Str) : Bool :=
  !(trim line).isEmpty && (headerOfLine line).isNone

/-- The trimmed content lines of an input, in order. -/
def contentOf (lines : List Str) : List Str :=
  (lines.filter isContentLine).map trim

/-- The header keys recognised in an input, in order. -/
def headerKeysOf (lines : List Str) : List SectionKey :=
  lines.filterMap headerOfLine

/-- Reference partition: split the line list into segments, one per flush
target — the running section key together with the trimmed content lines
accumulated for it. -/
def segsAux (cur : SectionKey) (acc : List Str) : List Str → List (SectionKey × List Str)
  | [] => [(cur, acc)]
  | line :: rest =>
    if trim line = [] then segsAux cur acc rest
    else
      match headerOfLine line with
      | some k => (cur, acc) :: segsAux k [] rest
      | none => segsAux cur (acc ++ [trim line]) rest

/-- The reference partition of an input text into (key, content lines)
segments, starting in `contact_info`. -/
def segments (text : Str) : List (SectionKey × List Str) :=
  segsAux .contact_info [] (text.splitOn '\n')

theorem segsAux_nil (cur : SectionKey) (acc : List Str) :
    segsAux cur acc [] = [(cur, acc)] := rfl

theorem segsAux_cons_blank (cur : SectionKey) (acc : List Str) (line : Str)
    (rest : List Str) (h : trim line = []) :
    segsAux cur acc (line :: rest) = segsAux cur acc rest := by
  rw [segsAux, if_pos h]

theorem segsAux_cons_header (cur : SectionKey) (acc : List Str) (line : Str)
    (rest : List Str) (k : SectionKey) (h0 : ¬ trim line = [])
    (hh : headerOfLine line = some k) :
    segsAux cur acc (line :: rest) = (cur, acc) :: segsAux k [] rest := by
  rw [segsAux, if_neg h0, hh]

theorem segsAux_cons_content (cur : SectionKey) (acc : List Str) (line : Str)
    (rest : List Str) (h0 : ¬ trim line = []) (hh : headerOfLine line = none) :
    segsAux cur acc (line :: rest) = segsAux cur (acc ++ [trim line]) rest := by
  rw [segsAux, if_neg h0, hh]

theorem processLine_blank (st : ExtractState) (line : Str) (h : trim line = []) :
    processLine st line = st := by
  unfold processLine
  rw [if_pos h]

theorem processLine_header (st : ExtractState) (line : Str) (k : SectionKey)
    (h0 : ¬ trim line = []) (h1 : headerOfLine line = some k) :
    processLine st line = { saveSection st with currentSection := k } := by
  unfold headerOfLine at h1
  rw [if_neg h0] at h1
  unfold processLine
  rw [if_neg h0]
  simp only [h1]

theorem processLine_content (st : ExtractState) (line : Str)
    (h0 : ¬ trim line = []) (h1 : headerOfLine line = none) :
    processLine st line = { st with buffer := st.buffer ++ [trim line] } := by
  unfold headerOfLine at h1
  rw [if_neg h0] at h1
  unfold processLine
  rw [if_neg h0]
  simp only [h1]

theorem saveSection_empty (st : ExtractState) (h : st.buffer = []) :
    saveSection st = st := by
  unfold saveSection
  rw [if_pos h]

theorem assocGet_cons_none (p : SectionKey × Str) (rest : List (SectionKey × Str))
    (k : SectionKey) (h : assocGet (p :: rest) k = none) :
    p.1 ≠ k ∧ assocGet rest k = none := by
  unfold assocGet at *
  rw [List.find?_cons] at h
  by_cases hp : p.1 = k
  · simp [hp] at h
  · refine ⟨hp, ?_⟩
    have hd : decide (p.1 = k) = false := by simp [hp]
    rw [hd] at h
    exact h

theorem assocSet_eq_append (l : List (SectionKey × Str)) (k : SectionKey) (v : Str)
    (h : assocGet l k = none) : assocSet l k v = l ++ [(k, v)] := by
  induction l with
  | nil => rfl
  | cons p rest ih =>
    obtain ⟨hp, hrest⟩ := assocGet_cons_none p rest k h
    unfold assocSet
    rw [if_neg (fun hh => hp hh)]
    rw [ih hrest]
    simp

theorem saveSection_new (st : ExtractState) (h : ¬ st.buffer = [])
    (h2 : assocGet st.sections st.currentSection = none) :
    saveSection st =
      ⟨st.sections ++ [(st.currentSection, trim (List.intercalate ['\n'] st.buffer))],
        st.currentSection, []⟩ := by
  unfold saveSection
  rw [if_neg h]
  dsimp only
  rw [h2]
  rw [assocSet_eq_append _ _ _ h2]

theorem assocGet_append_single_none (l : List (SectionKey × Str)) (k0 : SectionKey)
    (v : Str) (k : SectionKey) (hne : k ≠ k0) (h : assocGet l k = none) :
    assocGet (l ++ [(k0, v)]) k = none := by
  unfold assocGet at *
  rw [List.find?_append]
  have hf : l.find? (fun p => decide (p.1 = k)) = none := by
    cases hx : l.find? (fun p => decide (p.1 = k)) with
    | none => rfl
    | some p => rw [hx] at h; simp at h
  rw [hf]
  simp [Ne.symm hne]

theorem headerKeysOf_cons (line : Str) (rest : List Str) :
    headerKeysOf (line :: rest) =
      match headerOfLine line with
      | some k => k :: headerKeysOf rest
      | none => headerKeysOf rest := by
  unfold headerKeysOf
  rw [List.filterMap_cons]
  cases headerOfLine line <;> rfl

theorem firstMatchKey_mem (clean : Str) (k : SectionKey)
    (h : firstMatchKey clean = some k) : k ∈ headerOrder :=
  List.mem_of_find?_eq_some h

theorem headerOfLine_ne_contact (line : Str) (k : SectionKey)
    (h : headerOfLine line = some k) : k ≠ .contact_info := by
  simp only [headerOfLine] at h
  split at h
  · exact absurd h (by simp)
  · split at h
    · have := firstMatchKey_mem _ _ h
      intro hk
      rw [hk] at this
      exact absurd this (by decide)
    · exact absurd h (by simp)

/-- The loop invariant for `_extractSections`: starting from a state whose
sections object has no entry for any upcoming flush target, and with
pairwise-distinct upcoming flush targets, the loop produces exactly the
reference partition (nonempty segments only), appended to the existing
sections object. -/
theorem extract_loop_eq (lines : List Str) :
    ∀ (sections : List (SectionKey × Str)) (cur : SectionKey) (buffer : List Str),
    (∀ k ∈ cur :: headerKeysOf lines, assocGet sections k = none) →
    (cur :: headerKeysOf lines).Nodup →
    (saveSection (lines.foldl processLine ⟨sections, cur, buffer⟩)).sections
      = sections ++ (segsAux cur buffer lines).filterMap
          (fun p => if p.2 = [] then none
                    else some (p.1, trim (List.intercalate ['\n'] p.2))) := by
  induction lines with
  | nil =>
    intro sections cur buffer hdisj _
    simp only [List.foldl_nil, segsAux]
    by_cases hb : buffer = []
    · subst hb
      rw [saveSection_empty _ rfl]
      simp
    · rw [saveSection_new _ hb (hdisj cur (by simp))]
      simp [hb]
  | cons line rest ih =>
    intro sections cur buffer hdisj hnodup
    rw [List.foldl_cons]
    by_cases h0 : trim line = []
    · rw [processLine_blank _ _ h0]
      have hkeys : headerKeysOf (line :: rest) = headerKeysOf rest := by
        rw [headerKeysOf_cons]
        simp [headerOfLine, h0]
      rw [hkeys] at hdisj hnodup
      rw [ih sections cur buffer hdisj hnodup, segsAux_cons_blank _ _ _ _ h0]
    · cases hh : headerOfLine line with
      | some k =>
        rw [processLine_header _ _ _ h0 hh]
        have hkeys : headerKeysOf (line :: rest) = k :: headerKeysOf rest := by
          rw [headerKeysOf_cons, hh]
        rw [hkeys] at hdisj hnodup
        by_cases hb : buffer = []
        · subst hb
          rw [saveSection_empty ⟨sections, cur, []⟩ rfl]
          have ihr := ih sections k []
            (fun k2 hk2 => hdisj k2 (List.mem_cons_of_mem cur hk2))
            (hnodup.sublist (List.sublist_cons_self cur _))
          rw [ihr, segsAux_cons_header _ _ _ _ _ h0 hh]
          simp
        · rw [saveSection_new ⟨sections, cur, buffer⟩ hb (hdisj cur (by simp))]
          have hcur_notin : cur ∉ k :: headerKeysOf rest := by
            rw [List.nodup_cons] at hnodup
            exact hnodup.1
          have hdisj' : ∀ k2 ∈ k :: headerKeysOf rest,
              assocGet (sections ++
                [(cur, trim (List.intercalate ['\n'] buffer))]) k2 = none := by
            intro k2 hk2
            have hne : k2 ≠ cur := fun he => hcur_notin (he ▸ hk2)
            exact assocGet_append_single_none _ _ _ _ hne
              (hdisj k2 (List.mem_cons_of_mem _ hk2))
          have ihr := ih _ k [] hdisj'
            (hnodup.sublist (List.sublist_cons_self cur _))
          rw [ihr, segsAux_cons_header _ _ _ _ _ h0 hh]
          simp [hb]
      | none =>
        rw [processLine_content _ _ h0 hh]
        have hkeys : headerKeysOf (line :: rest) = headerKeysOf rest := by
          rw [headerKeysOf_cons, hh]
        rw [hkeys] at hdisj hnodup
        rw [ih sections cur (buffer ++ [trim line]) hdisj hnodup,
          segsAux_cons_content _ _ _ _ h0 hh]

theorem segsAux_flatMap (lines : List Str) :
    ∀ (cur : SectionKey) (acc : List Str),
      (segsAux cur acc lines).flatMap Prod.snd = acc ++ contentOf lines := by
  induction lines with
  | nil => intro cur acc; simp [segsAux_nil, contentOf]
  | cons line rest ih =>
    intro cur acc
    by_cases h0 : trim line = []
    · rw [segsAux_cons_blank _ _ _ _ h0, ih]
      have hc : isContentLine line = false := by
        unfold isContentLine
        simp [h0]
      simp [contentOf, List.filter_cons, hc]
    · cases hh : headerOfLine line with
      | some k =>
        have hc : isContentLine line = false := by
          unfold isContentLine
          simp [hh]
        rw [segsAux_cons_header _ _ _ _ _ h0 hh]
        simp only [List.flatMap_cons, ih k []]
        simp [contentOf, List.filter_cons, hc]
      | none =>
        have hc : isContentLine line = true := by
          unfold isContentLine
          simp [hh, h0]
        rw [segsAux_cons_content _ _ _ _ h0 hh, ih]
        simp [contentOf, List.filter_cons, hc]

/-- C2 (amended): when the recognised header keys are pairwise distinct
(so the 50-character dedup guard in `saveSection` never fires) and at
least one header is recognised, the produced sections object is exactly
the reference partition: one bucket per nonempty segment, each bucket the
newline-join of the trimmed content lines of its segment — and the
segments' contents enumerate every non-blank non-header line exactly once,
in order.  Hence no line is lost or duplicated across buckets. -/
theorem c2_partition (text : Str)
    (hone : headerKeysOf (text.splitOn '\n') ≠ [])
    (hnodup : (headerKeysOf (text.splitOn '\n')).Nodup) :
    extractSections text
      = (segments text).filterMap
          (fun p => if p.2 = [] then none
                    else some (p.1, trim (List.intercalate ['\n'] p.2))) ∧
    (segments text).flatMap Prod.snd = contentOf (text.splitOn '\n') := by
  constructor
  · have hnc : SectionKey.contact_info ∉ headerKeysOf (text.splitOn '\n') := by
      intro hmem
      unfold headerKeysOf at hmem
      rw [List.mem_filterMap] at hmem
      obtain ⟨line, _, hline⟩ := hmem
      exact headerOfLine_ne_contact line _ hline rfl
    have h := extract_loop_eq (text.splitOn '\n') [] .contact_info []
      (fun k _ => rfl) (List.nodup_cons.mpr ⟨hnc, hnodup⟩)
    unfold extractSections segments
    simpa using h
  · exact segsAux_flatMap _ _ _

/-- Witness for C2 (amended) at a concrete input. -/
theorem c2_partition_witness :
    (headerKeysOf (("Jane\nSkills\nfoo".data).splitOn '\n') ≠ [] ∧
      (headerKeysOf (("Jane\nSkills\nfoo".data).splitOn '\n')).Nodup) ∧
    (extractSections ("Jane\nSkills\nfoo".data)
      = (segments ("Jane\nSkills\nfoo".data)).filterMap
          (fun p => if p.2 = [] then none
                    else some (p.1, trim (List.intercalate ['\n'] p.2))) ∧
     (segments ("Jane\nSkills\nfoo".data)).flatMap Prod.snd
       = contentOf (("Jane\nSkills\nfoo".data).splitOn '\n')) :=
  ⟨⟨by decide, by decide⟩,
    c2_partition ("Jane\nSkills\nfoo".data) (by decide) (by decide)⟩

/-- C2 counterexample: with a repeated `SKILLS` header, the dedup guard in
`saveSection` silently drops a later, different block: the non-blank,
non-header line `unique` appears in no bucket of the result, so the
partition is lossy and the claim as stated is false. -/
theorem c2_counterexample :
    (isContentLine ("unique".data) = true ∧
      ("unique".data) ∈ (("SKILLS\n".data ++ List.replicate 50 'a' ++ "\nSKILLS\n".data ++
        List.replicate 50 'a' ++ "\nunique".data).splitOn '\n') ∧
      headerKeysOf (("SKILLS\n".data ++ List.replicate 50 'a' ++ "\nSKILLS\n".data ++
        List.replicate 50 'a' ++ "\nunique".data).splitOn '\n') ≠ []) ∧
    extractSections ("SKILLS\n".data ++ List.replicate 50 'a' ++ "\nSKILLS\n".data ++
        List.replicate 50 'a' ++ "\nunique".data)
      = [(SectionKey.skills, List.replicate 50 'a')] ∧
    (∀ p ∈ extractSections ("SKILLS\n".data ++ List.replicate 50 'a' ++ "\nSKILLS\n".data ++
        List.replicate 50 'a' ++ "\nunique".data),
      includesB p.2 ("unique".data) = false) := by
  exact ⟨⟨by decide, by decide, by decide⟩, by decide, by decide⟩

/-! ## Claim C1: idempotence of the parser's normalizer

The second pass is the identity exactly when the first pass's output
contains no substring any replace stage would rewrite.  The lemmas below
establish, stage by stage, that the output of the first pass (on inputs
free of `Phone:`/`Email:` labels) has that property. -/

theorem replaceAllG_nil (test : Str → Bool) (len : Nat) (r : Str) (fuel : Nat) :
    replaceAllG test len r fuel [] = [] := by
  cases fuel <;> rfl

theorem replaceAllG_zero (test : Str → Bool) (len : Nat) (r : Str) (s : Str) :
    replaceAllG test len r 0 s = s := by
  cases s <;> rfl

theorem replaceAllG_succ_cons (test : Str → Bool) (len : Nat) (r : Str) (n : Nat)
    (c : Char) (rest : Str) :
    replaceAllG test len r (n + 1) (c :: rest) =
      if test (c :: rest) then r ++ replaceAllG test len r n (List.drop len (c :: rest))
      else c :: replaceAllG test len r n rest := rfl

theorem singleton_infix_iff (a : Char) (l : Str) : [a] <:+: l ↔ a ∈ l := by
  constructor
  · intro h
    exact h.subset (by simp)
  · intro h
    obtain ⟨s, t, rfl⟩ := List.append_of_mem h
    exact ⟨s, t, by simp⟩

/-- An occurrence of `q` inside `a ++ b` lies inside `a`, inside `b`, or
spans the boundary: a nonempty proper prefix of `q` is a suffix of `a` and
the rest of `q` is a prefix of `b`. -/
theorem infix_append_decomp {q a b : Str} (hq : q ≠ []) (h : q <:+: a ++ b) :
    q <:+: a ∨ q <:+: b ∨
      ∃ k, 0 < k ∧ k < q.length ∧ (q.take k) <:+ a ∧ (q.drop k) <+: b := by
  induction a with
  | nil =>
    right; left
    simpa using h
  | cons x a' ih =>
    rw [List.cons_append, List.infix_cons_iff] at h
    rcases h with hpre | hinf
    · have hpre' : q <+: (x :: a') ++ b := by simpa using hpre
      by_cases hlen : q.length ≤ (x :: a').length
      · left
        exact (List.prefix_of_prefix_length_le hpre' (List.prefix_append _ _) hlen).isInfix
      · right; right
        push_neg at hlen
        have hax : (x :: a') <+: q :=
          List.prefix_of_prefix_length_le (List.prefix_append _ _) hpre' (le_of_lt hlen)
        have htake : (x :: a') = q.take (x :: a').length := List.prefix_iff_eq_take.mp hax
        obtain ⟨u, hu⟩ := hax
        refine ⟨(x :: a').length, by simp, hlen, ?_, ?_⟩
        · rw [← htake]
        · have hub : (x :: a') ++ u <+: (x :: a') ++ b := by rw [hu]; exact hpre'
          have := (List.prefix_append_right_inj (x :: a')).mp hub
          rw [← hu, List.drop_left]
          exact this
    · rcases ih hinf with h1 | h2 | ⟨k, hk0, hkq, hka, hkb⟩
      · left; exact h1.trans (List.suffix_cons x a').isInfix
      · right; left; exact h2
      · right; right; exact ⟨k, hk0, hkq, hka.trans (List.suffix_cons x a'), hkb⟩

/-- If every nonempty suffix of `v` is prefix-incompatible with the
replacement `r`, then a prefix `v` of a replacement output is already a
prefix of the input. -/
theorem replaceAllG_prefix_rev (test : Str → Bool) (len : Nat) (r : Str) (hr : r ≠ []) :
    ∀ (fuel : Nat) (s v : Str), v ≠ [] →
      (∀ w, w <:+ v → w ≠ [] → ¬ w <+: r ∧ ¬ r <+: w) →
      v <+: replaceAllG test len r fuel s → v <+: s := by
  intro fuel
  induction fuel with
  | zero =>
    intro s v hv hcond hpre
    cases s with
    | nil =>
      rw [replaceAllG_nil] at hpre
      exact absurd (List.prefix_nil.mp hpre) hv
    | cons c rest =>
      rw [replaceAllG_zero] at hpre
      exact hpre
  | succ n ih =>
    intro s v hv hcond hpre
    cases s with
    | nil =>
      rw [replaceAllG_nil] at hpre
      exact absurd (List.prefix_nil.mp hpre) hv
    | cons c rest =>
      rw [replaceAllG_succ_cons] at hpre
      by_cases ht : test (c :: rest) = true
      · rw [if_pos ht] at hpre
        by_cases hlen : v.length ≤ r.length
        · have hvr : v <+: r :=
            List.prefix_of_prefix_length_le hpre (List.prefix_append r _) hlen
          exact absurd hvr (hcond v List.suffix_rfl hv).1
        · push_neg at hlen
          have hrv : r <+: v :=
            List.prefix_of_prefix_length_le (List.prefix_append r _) hpre (le_of_lt hlen)
          exact absurd hrv (hcond v List.suffix_rfl hv).2
      · rw [if_neg ht] at hpre
        cases v with
        | nil => exact absurd rfl hv
        | cons vh vt =>
          rw [List.cons_prefix_cons] at hpre
          obtain ⟨hvh, hvt⟩ := hpre
          subst hvh
          by_cases hvtnil : vt = []
          · subst hvtnil
            exact List.cons_prefix_cons.mpr ⟨rfl, List.nil_prefix⟩
          · have hvtr : vt <+: rest := ih rest vt hvtnil
              (fun w hw hwne => hcond w (hw.trans (List.suffix_cons vh vt)) hwne) hvt
            exact List.cons_prefix_cons.mpr ⟨rfl, hvtr⟩

/-- Master no-occurrence lemma: under finite prefix/suffix-compatibility
side-conditions between the excluded pattern `q` and the replacement `r`,
a global replace never leaves (self case, `q` the replaced pattern) or
creates (cross case, `q` not occurring in the input) an occurrence of `q`. -/
theorem replaceAllG_no_occ (test : Str → Bool) (len : Nat) (r q : Str)
    (hq : q ≠ []) (hr : r ≠ []) (hlen : 1 ≤ len)
    (h1 : ¬ q <:+: r)
    (h2 : ∀ k, k < q.length → 0 < k → ¬ (q.take k) <:+ r)
    (h3 : ∀ k, k < q.tail.length → ¬ (q.tail.drop k) <+: r ∧ ¬ r <+: (q.tail.drop k)) :
    ∀ (fuel : Nat) (s : Str), s.length ≤ fuel →
      ((∀ t, q.isPrefixOf t = true → test t = true) ∨ ¬ q <:+: s) →
      ¬ q <:+: replaceAllG test len r fuel s := by
  have h3' : ∀ w, w <:+ q.tail → w ≠ [] → ¬ w <+: r ∧ ¬ r <+: w := by
    intro w hw hwne
    obtain ⟨u, hu⟩ := hw
    have hk : q.tail.drop u.length = w := by rw [← hu, List.drop_left]
    have hklt : u.length < q.tail.length := by
      have hwpos : 0 < w.length := List.length_pos.mpr hwne
      rw [← hu, List.length_append]
      omega
    have := h3 u.length hklt
    rw [hk] at this
    exact this
  intro fuel
  induction fuel with
  | zero =>
    intro s hs _
    have hnil : s = [] := List.length_eq_zero.mp (Nat.le_zero.mp hs)
    subst hnil
    rw [replaceAllG_nil]
    intro hcon
    exact hq (List.infix_nil.mp hcon)
  | succ n ih =>
    intro s hs hmode
    cases s with
    | nil =>
      rw [replaceAllG_nil]
      intro hcon
      exact hq (List.infix_nil.mp hcon)
    | cons c rest =>
      rw [replaceAllG_succ_cons]
      by_cases ht : test (c :: rest) = true
      · rw [if_pos ht]
        intro hcon
        rcases infix_append_decomp hq hcon with hA | hB | ⟨k, hk0, hkq, hka, _⟩
        · exact h1 hA
        · have hfuel : (List.drop len (c :: rest)).length ≤ n := by
            rw [List.length_drop]
            simp only [List.length_cons] at hs ⊢
            omega
          have hmode' : (∀ t, q.isPrefixOf t = true → test t = true) ∨
              ¬ q <:+: List.drop len (c :: rest) := by
            rcases hmode with hm | hm
            · exact Or.inl hm
            · exact Or.inr (fun hcc => hm (hcc.trans (List.drop_suffix len _).isInfix))
          exact ih _ hfuel hmode' hB
        · exact (h2 k hkq hk0) hka
      · rw [if_neg ht]
        intro hcon
        rw [List.infix_cons_iff] at hcon
        rcases hcon with hpre | hinf
        · cases q with
          | nil => exact hq rfl
          | cons qh qt =>
            rw [List.cons_prefix_cons] at hpre
            obtain ⟨hqh, hqt⟩ := hpre
            subst hqh
            by_cases hqtnil : qt = []
            · subst hqtnil
              have hqpre : ([qh] : Str).isPrefixOf (qh :: rest) = true := by
                rw [List.isPrefixOf_iff_prefix]
                exact List.cons_prefix_cons.mpr ⟨rfl, List.nil_prefix⟩
              rcases hmode with hm | hm
              · exact absurd (hm _ hqpre) ht
              · exact hm (List.isPrefixOf_iff_prefix.mp hqpre).isInfix
            · have hvt : qt <+: rest := replaceAllG_prefix_rev test len r hr n rest qt
                hqtnil (fun w hw hwne => h3' w hw hwne) hqt
              have hqpre : (qh :: qt).isPrefixOf (qh :: rest) = true := by
                rw [List.isPrefixOf_iff_prefix]
                exact List.cons_prefix_cons.mpr ⟨rfl, hvt⟩
              rcases hmode with hm | hm
              · exact absurd (hm _ hqpre) ht
              · exact hm (List.isPrefixOf_iff_prefix.mp hqpre).isInfix
        · have hmode' : (∀ t, q.isPrefixOf t = true → test t = true) ∨ ¬ q <:+: rest := by
            rcases hmode with hm | hm
            · exact Or.inl hm
            · exact Or.inr (fun hcc => hm (hcc.trans (List.suffix_cons c rest).isInfix))
          exact ih rest (by simp only [List.length_cons] at hs; omega) hmode' hinf

/-- A global replace whose pattern test fails on every suffix of the input
is the identity (regardless of fuel). -/
theorem replaceAllG_noop (test : Str → Bool) (len : Nat) (r : Str) :
    ∀ (fuel : Nat) (s : Str), (∀ t, t <:+ s → test t = false) →
      replaceAllG test len r fuel s = s := by
  intro fuel
  induction fuel with
  | zero =>
    intro s _
    cases s <;> rfl
  | succ n ih =>
    intro s h
    cases s with
    | nil => rfl
    | cons c rest =>
      rw [replaceAllG_succ_cons]
      rw [if_neg (by simp [h (c :: rest) List.suffix_rfl])]
      rw [ih rest (fun t ht => h t (ht.trans (List.suffix_cons c rest)))]

/-- Characters of a replace output come from the input or the replacement. -/
theorem replaceAllG_mem (test : Str → Bool) (len : Nat) (r : Str) :
    ∀ (fuel : Nat) (s : Str) (a : Char),
      a ∈ replaceAllG test len r fuel s → a ∈ s ∨ a ∈ r := by
  intro fuel
  induction fuel with
  | zero =>
    intro s a h
    cases s with
    | nil => rw [replaceAllG_nil] at h; simp at h
    | cons c rest => rw [replaceAllG_zero] at h; exact Or.inl h
  | succ n ih =>
    intro s a h
    cases s with
    | nil => rw [replaceAllG_nil] at h; simp at h
    | cons c rest =>
      rw [replaceAllG_succ_cons] at h
      by_cases ht : test (c :: rest) = true
      · rw [if_pos ht] at h
        rcases List.mem_append.mp h with hra | hrec
        · exact Or.inr hra
        · rcases ih _ _ hrec with hd | hr2
          · exact Or.inl (List.drop_subset _ _ hd)
          · exact Or.inr hr2
      · rw [if_neg ht] at h
        rcases List.mem_cons.mp h with rfl | hrec
        · exact Or.inl (by simp)
        · rcases ih _ _ hrec with hd | hr2
          · exact Or.inl (List.mem_cons_of_mem _ hd)
          · exact Or.inr hr2

/-- Carriage-return stripping removes every `'\r'`. -/
theorem replaceAll_cr_not_mem_aux :
    ∀ (fuel : Nat) (s : Str), s.length ≤ fuel →
      '\r' ∉ replaceAllG
        (fun t => !List.isEmpty ("\r".data) && ("\r".data).isPrefixOf t)
        (("\r".data).length) [] fuel s := by
  intro fuel
  induction fuel with
  | zero =>
    intro s hs
    have hnil : s = [] := List.length_eq_zero.mp (Nat.le_zero.mp hs)
    subst hnil
    rw [replaceAllG_nil]
    simp
  | succ n ih =>
    intro s hs
    cases s with
    | nil => rw [replaceAllG_nil]; simp
    | cons c rest =>
      rw [replaceAllG_succ_cons]
      by_cases hc : c = '\r'
      · subst hc
        have htest : (!List.isEmpty ("\r".data) &&
            ("\r".data).isPrefixOf ('\r' :: rest)) = true := by
          simp [List.isPrefixOf_iff_prefix, List.cons_prefix_cons]
        rw [if_pos htest]
        simp only [List.nil_append]
        have hdrop : (List.drop (("\r".data).length) ('\r' :: rest)) = rest := by simp
        rw [hdrop]
        exact ih rest (by simp only [List.length_cons] at hs; omega)
      · have htest : ¬ ((!List.isEmpty ("\r".data) &&
            ("\r".data).isPrefixOf (c :: rest)) = true) := by
          simp only [Bool.and_eq_true, List.isPrefixOf_iff_prefix]
          rintro ⟨-, h2⟩
          rw [List.cons_prefix_cons] at h2
          exact hc h2.1.symm
        rw [if_neg htest]
        intro hmem
        rcases List.mem_cons.mp hmem with rfl | hrec
        · exact hc rfl
        · exact ih rest (by simp only [List.length_cons] at hs; omega) hrec

theorem replaceAll_cr_not_mem (s : Str) : '\r' ∉ replaceAll ("\r".data) [] s :=
  replaceAll_cr_not_mem_aux s.length s le_rfl

/-! ### Newline-collapse lemmas -/

theorem collapse2_head? (s : Str) : (collapse2 s).head? = s.head? := by
  induction s using collapse2.induct with
  | case1 rest ih =>
    rw [collapse2]
    rw [ih]
    rfl
  | case2 c rest h ih =>
    rw [collapse2]
    · rfl
    · exact h
  | case3 => rfl

theorem collapse2_subset (s : Str) (a : Char) (h : a ∈ collapse2 s) : a ∈ s := by
  induction s using collapse2.induct with
  | case1 rest ih =>
    rw [collapse2] at h
    have := ih h
    rcases List.mem_cons.mp this with rfl | hm
    · simp
    · simp [hm]
  | case2 c rest hg ih =>
    rw [collapse2] at h
    · rcases List.mem_cons.mp h with rfl | hm
      · simp
      · simp [ih hm]
    · exact hg
  | case3 => simpa [collapse2] using h

theorem collapse2_no_double (s : Str) : ¬ ("\n\n".data) <:+: collapse2 s := by
  induction s using collapse2.induct with
  | case1 rest ih =>
    rw [collapse2]
    exact ih
  | case2 c rest hg ih =>
    rw [collapse2]
    · intro hcon
      rw [List.infix_cons_iff] at hcon
      rcases hcon with hpre | hinf
      · have hpre' : ('\n' :: '\n' :: ([] : Str)) <+: c :: collapse2 rest := hpre
        rw [List.cons_prefix_cons] at hpre'
        obtain ⟨hc, htail⟩ := hpre'
        have hhead : (collapse2 rest).head? = some '\n' := by
          cases hx : collapse2 rest with
          | nil => rw [hx] at htail; exact absurd (List.prefix_nil.mp htail) (by simp)
          | cons y ys =>
            rw [hx] at htail
            rw [List.cons_prefix_cons] at htail
            rw [htail.1]
            rfl
        rw [collapse2_head?] at hhead
        cases hr : rest with
        | nil => rw [hr] at hhead; simp at hhead
        | cons y ys =>
          rw [hr] at hhead
          simp only [List.head?_cons, Option.some.injEq] at hhead
          exact hg ys hc.symm (by rw [hr, hhead])
      · exact ih hinf
    · exact hg
  | case3 =>
    intro hcon
    have := List.infix_nil.mp hcon
    simp at this

theorem collapse2_fix (s : Str) (h : ¬ ("\n\n".data) <:+: s) : collapse2 s = s := by
  induction s using collapse2.induct with
  | case1 rest ih =>
    exfalso
    apply h
    have hp : ("\n\n".data) <+: '\n' :: '\n' :: rest := by
      simp [List.cons_prefix_cons]
    exact hp.isInfix
  | case2 c rest hg ih =>
    rw [collapse2]
    · rw [ih (fun hc => h (hc.trans (List.suffix_cons c rest).isInfix))]
    · exact hg
  | case3 => rfl

theorem collapse2_prefix_rev :
    ∀ (s v : Str), v ≠ [] → '\n' ∉ v → v <+: collapse2 s → v <+: s := by
  intro s
  induction s using collapse2.induct with
  | case1 rest ih =>
    intro v hv hnl hp
    rw [collapse2] at hp
    have := ih v hv hnl hp
    exfalso
    cases v with
    | nil => exact hv rfl
    | cons vh vt =>
      rw [List.cons_prefix_cons] at this
      exact hnl (by rw [this.1]; simp)
  | case2 c rest hg ih =>
    intro v hv hnl hp
    rw [collapse2] at hp
    · cases v with
      | nil => exact absurd rfl hv
      | cons vh vt =>
        rw [List.cons_prefix_cons] at hp
        obtain ⟨hvh, hvt⟩ := hp
        subst hvh
        by_cases hvtnil : vt = []
        · subst hvtnil
          exact List.cons_prefix_cons.mpr ⟨rfl, List.nil_prefix⟩
        · have := ih vt hvtnil (fun hm => hnl (List.mem_cons_of_mem _ hm)) hvt
          exact List.cons_prefix_cons.mpr ⟨rfl, this⟩
    · exact hg
  | case3 =>
    intro v hv _ hp
    rw [collapse2] at hp
    exact hp

theorem collapse2_no_occ_pres (q : Str) (hq : q ≠ []) (hnl : '\n' ∉ q) :
    ∀ s : Str, ¬ q <:+: s → ¬ q <:+: collapse2 s := by
  intro s
  induction s using collapse2.induct with
  | case1 rest ih =>
    intro hno
    rw [collapse2]
    exact ih (fun hc => hno (hc.trans (List.suffix_cons '\n' ('\n' :: rest)).isInfix))
  | case2 c rest hg ih =>
    intro hno hcon
    rw [collapse2] at hcon
    · rw [List.infix_cons_iff] at hcon
      rcases hcon with hpre | hinf
      · cases q with
        | nil => exact hq rfl
        | cons qh qt =>
          rw [List.cons_prefix_cons] at hpre
          obtain ⟨hqh, hqt⟩ := hpre
          subst hqh
          by_cases hqtnil : qt = []
          · subst hqtnil
            exact hno (show ((qh :: []) : Str) <+: qh :: rest by
              exact List.cons_prefix_cons.mpr ⟨rfl, List.nil_prefix⟩).isInfix
          · have hvt : qt <+: rest := collapse2_prefix_rev rest qt hqtnil
              (fun hm => hnl (List.mem_cons_of_mem _ hm)) hqt
            exact hno (List.cons_prefix_cons.mpr ⟨rfl, hvt⟩).isInfix
      · exact ih (fun hc => hno (hc.trans (List.suffix_cons c rest).isInfix)) hinf
    · exact hg
  | case3 =>
    intro _ hcon
    rw [collapse2] at hcon
    exact hq (List.infix_nil.mp hcon)

theorem collapse2_prefix_rev_map :
    ∀ (s v : Str), v ≠ [] → '\n' ∉ v →
      v <+: (collapse2 s).map Char.toLower → v <+: s.map Char.toLower := by
  intro s
  induction s using collapse2.induct with
  | case1 rest ih =>
    intro v hv hnl hp
    rw [collapse2] at hp
    have := ih v hv hnl hp
    exfalso
    cases v with
    | nil => exact hv rfl
    | cons vh vt =>
      simp only [List.map_cons] at this
      rw [List.cons_prefix_cons] at this
      apply hnl
      rw [this.1]
      simp [show Char.toLower '\n' = '\n' from rfl]
  | case2 c rest hg ih =>
    intro v hv hnl hp
    rw [collapse2] at hp
    · simp only [List.map_cons] at hp ⊢
      cases v with
      | nil => exact absurd rfl hv
      | cons vh vt =>
        rw [List.cons_prefix_cons] at hp
        obtain ⟨hvh, hvt⟩ := hp
        subst hvh
        by_cases hvtnil : vt = []
        · subst hvtnil
          exact List.cons_prefix_cons.mpr ⟨rfl, List.nil_prefix⟩
        · have := ih vt hvtnil (fun hm => hnl (List.mem_cons_of_mem _ hm)) hvt
          exact List.cons_prefix_cons.mpr ⟨rfl, this⟩
    · exact hg
  | case3 =>
    intro v hv _ hp
    rw [collapse2] at hp
    exact hp

theorem collapse2_no_occ_pres_map (q : Str) (hq : q ≠ []) (hnl : '\n' ∉ q) :
    ∀ s : Str, ¬ q <:+: s.map Char.toLower →
      ¬ q <:+: (collapse2 s).map Char.toLower := by
  intro s
  induction s using collapse2.induct with
  | case1 rest ih =>
    intro hno
    rw [collapse2]
    apply ih
    intro hc
    apply hno
    have hsuf : ('\n' :: rest : Str) <:+ '\n' :: '\n' :: rest :=
      List.suffix_cons '\n' ('\n' :: rest)
    exact hc.trans (hsuf.map Char.toLower).isInfix
  | case2 c rest hg ih =>
    intro hno hcon
    rw [collapse2] at hcon
    · simp only [List.map_cons] at hcon
      rw [List.infix_cons_iff] at hcon
      rcases hcon with hpre | hinf
      · cases q with
        | nil => exact hq rfl
        | cons qh qt =>
          rw [List.cons_prefix_cons] at hpre
          obtain ⟨hqh, hqt⟩ := hpre
          subst hqh
          by_cases hqtnil : qt = []
          · subst hqtnil
            apply hno
            refine (List.cons_prefix_cons.mpr ⟨rfl, List.nil_prefix⟩ :
              _ <+: Char.toLower c :: rest.map Char.toLower).isInfix.trans ?_
            simp [List.map_cons]
          · have hvt : qt <+: rest.map Char.toLower := collapse2_prefix_rev_map rest qt
              hqtnil (fun hm => hnl (List.mem_cons_of_mem _ hm)) hqt
            apply hno
            refine (List.cons_prefix_cons.mpr ⟨rfl, hvt⟩ :
              _ <+: Char.toLower c :: rest.map Char.toLower).isInfix.trans ?_
            simp [List.map_cons]
      · apply ih ?_ hinf
        intro hc
        apply hno
        exact hc.trans ((List.suffix_cons c rest).map Char.toLower).isInfix
    · exact hg
  | case3 =>
    intro _ hcon
    rw [collapse2] at hcon
    exact hq (List.infix_nil.mp hcon)

/-! ### Trim lemmas -/

theorem trim_within (s : Str) : trim s <:+: s := by
  have h1 : s.dropWhile isWs <:+ s := List.dropWhile_suffix _
  have h2 : (s.dropWhile isWs).reverse.dropWhile isWs <:+ (s.dropWhile isWs).reverse :=
    List.dropWhile_suffix _
  have h3 : ((s.dropWhile isWs).reverse.dropWhile isWs).reverse <+: s.dropWhile isWs := by
    rw [← List.reverse_suffix]
    simpa using h2
  exact (h3.isInfix).trans h1.isInfix

theorem dropWhile_head?_false (p : Char → Bool) :
    ∀ (l : Str) (c : Char), (l.dropWhile p).head? = some c → p c = false := by
  intro l
  induction l with
  | nil => intro c h; simp at h
  | cons a t ih =>
    intro c h
    rw [List.dropWhile_cons] at h
    by_cases hp : p a = true
    · rw [if_pos hp] at h
      exact ih c h
    · rw [if_neg hp] at h
      simp only [List.head?_cons, Option.some.injEq] at h
      subst h
      exact Bool.not_eq_true _ ▸ (by simpa using hp)

theorem dropWhile_of_head?_false (p : Char → Bool) (l : Str)
    (h : ∀ c, l.head? = some c → p c = false) : l.dropWhile p = l := by
  cases l with
  | nil => rfl
  | cons a t =>
    rw [List.dropWhile_cons, if_neg (by simp [h a rfl])]

theorem trim_idem (s : Str) : trim (trim s) = trim s := by
  have hXhead : ∀ c, ((s.dropWhile isWs).reverse.dropWhile isWs).head? = some c →
      isWs c = false := fun c hc => dropWhile_head?_false _ _ c hc
  have huhead : ∀ c, (s.dropWhile isWs).head? = some c → isWs c = false :=
    fun c hc => dropWhile_head?_false _ _ c hc
  have step1 : (trim s).dropWhile isWs = trim s := by
    apply dropWhile_of_head?_false
    intro c hc
    unfold trim at hc
    rw [List.head?_reverse] at hc
    have hXne : (s.dropWhile isWs).reverse.dropWhile isWs ≠ [] := by
      intro hnil
      rw [hnil] at hc
      simp at hc
    obtain ⟨w, hw⟩ : (s.dropWhile isWs).reverse.dropWhile isWs <:+
        (s.dropWhile isWs).reverse := List.dropWhile_suffix _
    have hlast : ((s.dropWhile isWs).reverse).getLast? = some c := by
      rw [← hw]
      rw [List.getLast?_append_of_ne_nil _ hXne]
      exact hc
    rw [List.getLast?_reverse] at hlast
    exact huhead c hlast
  have step2 : ((s.dropWhile isWs).reverse.dropWhile isWs).dropWhile isWs =
      (s.dropWhile isWs).reverse.dropWhile isWs :=
    dropWhile_of_head?_false _ _ hXhead
  show (((trim s).dropWhile isWs).reverse.dropWhile isWs).reverse = trim s
  rw [step1]
  unfold trim
  rw [List.reverse_reverse, step2]

/-! ### Instantiations of the master lemma and noop lemmas -/

theorem replaceAll_no_occ_self (p r : Str) (hp : p ≠ []) (hr : r ≠ [])
    (h1 : ¬ p <:+: r)
    (h2 : ∀ k, k < p.length → 0 < k → ¬ (p.take k) <:+ r)
    (h3 : ∀ k, k < p.tail.length → ¬ (p.tail.drop k) <+: r ∧ ¬ r <+: (p.tail.drop k))
    (z : Str) : ¬ p <:+: replaceAll p r z := by
  unfold replaceAll
  apply replaceAllG_no_occ _ _ _ _ hp hr (List.length_pos.mpr hp) h1 h2 h3 z.length z le_rfl
  refine Or.inl (fun t ht => ?_)
  simp [ht, hp]

theorem replaceAll_no_occ_cross (p r q : Str)
    (hq : q ≠ []) (hr : r ≠ []) (hplen : 1 ≤ p.length)
    (h1 : ¬ q <:+: r)
    (h2 : ∀ k, k < q.length → 0 < k → ¬ (q.take k) <:+ r)
    (h3 : ∀ k, k < q.tail.length → ¬ (q.tail.drop k) <+: r ∧ ¬ r <+: (q.tail.drop k))
    (z : Str) (hz : ¬ q <:+: z) : ¬ q <:+: replaceAll p r z := by
  unfold replaceAll
  exact replaceAllG_no_occ _ _ _ _ hq hr hplen h1 h2 h3 z.length z le_rfl (Or.inr hz)

theorem replaceAllCI_no_occ_cross (p r q : Str)
    (hq : q ≠ []) (hr : r ≠ []) (hplen : 1 ≤ p.length)
    (h1 : ¬ q <:+: r)
    (h2 : ∀ k, k < q.length → 0 < k → ¬ (q.take k) <:+ r)
    (h3 : ∀ k, k < q.tail.length → ¬ (q.tail.drop k) <+: r ∧ ¬ r <+: (q.tail.drop k))
    (z : Str) (hz : ¬ q <:+: z) : ¬ q <:+: replaceAllCI p r z := by
  unfold replaceAllCI
  exact replaceAllG_no_occ _ _ _ _ hq hr hplen h1 h2 h3 z.length z le_rfl (Or.inr hz)

theorem replaceAll_noop_of_no_occ (p r z : Str) (h : ¬ p <:+: z) :
    replaceAll p r z = z := by
  unfold replaceAll
  apply replaceAllG_noop
  intro t ht
  have hnp : ¬ (p.isPrefixOf t = true) := fun hpre =>
    h (((List.isPrefixOf_iff_prefix.mp hpre).isInfix).trans ht.isInfix)
  cases hx : p.isPrefixOf t with
  | true => exact absurd hx hnp
  | false => simp [hx]

theorem replaceAllCI_noop_of_no_occ (p r z : Str)
    (h : ¬ p <:+: z.map Char.toLower) : replaceAllCI p r z = z := by
  unfold replaceAllCI
  apply replaceAllG_noop
  intro t ht
  have hnp : ¬ (((t.take p.length).map Char.toLower) = p) := by
    intro heq
    apply h
    have h2 : (t.map Char.toLower).take p.length = p := by
      rw [← List.map_take]
      exact heq
    have hpre : p <+: t.map Char.toLower := List.prefix_iff_eq_take.mpr h2.symm
    exact (hpre.isInfix).trans ((ht.map Char.toLower).isInfix)
  cases hx : decide (((t.take p.length).map Char.toLower) = p) with
  | true => exact absurd (of_decide_eq_true hx) hnp
  | false => simp [hx]

/-- Lowercasing a case-insensitive replace is a plain replace of the
lowercase pattern on the lowercased string (with lowercased replacement). -/
theorem replaceAllCI_map_aux (p r : Str) :
    ∀ (fuel : Nat) (s : Str),
      (replaceAllG
          (fun t => !List.isEmpty p && decide ((t.take p.length).map Char.toLower = p))
          p.length r fuel s).map Char.toLower
        = replaceAllG (fun t => !List.isEmpty p && p.isPrefixOf t) p.length
            (r.map Char.toLower) fuel (s.map Char.toLower) := by
  intro fuel
  induction fuel with
  | zero =>
    intro s
    rw [replaceAllG_zero, replaceAllG_zero]
  | succ n ih =>
    intro s
    cases s with
    | nil => rw [List.map_nil, replaceAllG_nil, replaceAllG_nil, List.map_nil]
    | cons c rest =>
      rw [replaceAllG_succ_cons, List.map_cons, replaceAllG_succ_cons]
      have htesteq :
          (!List.isEmpty p && decide ((((c :: rest).take p.length).map Char.toLower) = p))
            = (!List.isEmpty p && p.isPrefixOf (Char.toLower c :: rest.map Char.toLower)) := by
        congr 1
        rw [Bool.eq_iff_iff]
        simp only [decide_eq_true_eq, List.isPrefixOf_iff_prefix]
        rw [List.prefix_iff_eq_take]
        rw [show (Char.toLower c :: rest.map Char.toLower) = (c :: rest).map Char.toLower
          from rfl]
        rw [← List.map_take]
        constructor
        · intro hx; exact hx.symm
        · intro hx; exact hx.symm
      rw [← htesteq]
      by_cases ht :
          (!List.isEmpty p && decide ((((c :: rest).take p.length).map Char.toLower) = p)) = true
      · rw [if_pos ht, if_pos ht]
        rw [List.map_append, ih]
        rw [show ((List.drop p.length (c :: rest)).map Char.toLower)
          = List.drop p.length ((c :: rest).map Char.toLower) from List.map_drop _ _ _]
        rfl
      · rw [if_neg ht, if_neg ht]
        rw [List.map_cons, ih]

theorem replaceAllCI_map_toLower (p r s : Str) :
    (replaceAllCI p r s).map Char.toLower
      = replaceAll p (r.map Char.toLower) (s.map Char.toLower) := by
  unfold replaceAllCI replaceAll
  rw [replaceAllCI_map_aux]
  rw [List.length_map]

/-! ### The first pass leaves nothing for the second pass to rewrite -/

theorem normalizeParserCore_eq_of_no_labels (x : Str)
    (hp : ¬ ("Phone:".data) <:+: replaceAll ("\r".data) [] x)
    (he : ¬ ("Email:".data) <:+: replaceAll ("\r".data) [] x) :
    normalizeParserCore x =
      trim (collapse2 (replaceAllCI ("linkedln:".data) ("LinkedIn:".data)
        (replaceAll ("Bachelorof".data) ("Bachelor of".data)
          (replaceAll ("\r".data) [] x)))) := by
  have hpB : ¬ ("Phone:".data) <:+:
      replaceAll ("Bachelorof".data) ("Bachelor of".data) (replaceAll ("\r".data) [] x) :=
    replaceAll_no_occ_cross _ _ _ (by decide) (by decide) (by decide) (by decide)
      (by decide) (by decide) _ hp
  have heB : ¬ ("Email:".data) <:+:
      replaceAll ("Bachelorof".data) ("Bachelor of".data) (replaceAll ("\r".data) [] x) :=
    replaceAll_no_occ_cross _ _ _ (by decide) (by decide) (by decide) (by decide)
      (by decide) (by decide) _ he
  unfold normalizeParserCore
  rw [replaceAll_noop_of_no_occ _ _ _ hpB, replaceAll_noop_of_no_occ _ _ _ heB]

theorem normalizeParserCore_no_cr (x : Str)
    (hp : ¬ ("Phone:".data) <:+: replaceAll ("\r".data) [] x)
    (he : ¬ ("Email:".data) <:+: replaceAll ("\r".data) [] x) :
    '\r' ∉ normalizeParserCore x := by
  rw [normalizeParserCore_eq_of_no_labels x hp he]
  intro hmem
  have h1 : '\r' ∈ collapse2 (replaceAllCI ("linkedln:".data) ("LinkedIn:".data)
      (replaceAll ("Bachelorof".data) ("Bachelor of".data)
        (replaceAll ("\r".data) [] x))) := (trim_within _).subset hmem
  have h2 := collapse2_subset _ _ h1
  rcases replaceAllG_mem _ _ _ _ _ _ h2 with h3 | h3
  · rcases replaceAllG_mem _ _ _ _ _ _ h3 with h4 | h4
    · exact replaceAll_cr_not_mem x h4
    · exact absurd h4 (by decide)
  · exact absurd h3 (by decide)

theorem normalizeParserCore_no_bach (x : Str)
    (hp : ¬ ("Phone:".data) <:+: replaceAll ("\r".data) [] x)
    (he : ¬ ("Email:".data) <:+: replaceAll ("\r".data) [] x) :
    ¬ ("Bachelorof".data) <:+: normalizeParserCore x := by
  rw [normalizeParserCore_eq_of_no_labels x hp he]
  have hB : ¬ ("Bachelorof".data) <:+:
      replaceAll ("Bachelorof".data) ("Bachelor of".data) (replaceAll ("\r".data) [] x) :=
    replaceAll_no_occ_self _ _ (by decide) (by decide) (by decide) (by decide) (by decide) _
  have hL : ¬ ("Bachelorof".data) <:+:
      replaceAllCI ("linkedln:".data) ("LinkedIn:".data)
        (replaceAll ("Bachelorof".data) ("Bachelor of".data)
          (replaceAll ("\r".data) [] x)) :=
    replaceAllCI_no_occ_cross _ _ _ (by decide) (by decide) (by decide) (by decide)
      (by decide) (by decide) _ hB
  have hC := collapse2_no_occ_pres _ (by decide) (by decide) _ hL
  exact fun hc => hC (hc.trans (trim_within _))

theorem normalizeParserCore_no_phone (x : Str)
    (hp : ¬ ("Phone:".data) <:+: replaceAll ("\r".data) [] x)
    (he : ¬ ("Email:".data) <:+: replaceAll ("\r".data) [] x) :
    ¬ ("Phone:".data) <:+: normalizeParserCore x := by
  rw [normalizeParserCore_eq_of_no_labels x hp he]
  have hB : ¬ ("Phone:".data) <:+:
      replaceAll ("Bachelorof".data) ("Bachelor of".data) (replaceAll ("\r".data) [] x) :=
    replaceAll_no_occ_cross _ _ _ (by decide) (by decide) (by decide) (by decide)
      (by decide) (by decide) _ hp
  have hL : ¬ ("Phone:".data) <:+:
      replaceAllCI ("linkedln:".data) ("LinkedIn:".data)
        (replaceAll ("Bachelorof".data) ("Bachelor of".data)
          (replaceAll ("\r".data) [] x)) :=
    replaceAllCI_no_occ_cross _ _ _ (by decide) (by decide) (by decide) (by decide)
      (by decide) (by decide) _ hB
  have hC := collapse2_no_occ_pres _ (by decide) (by decide) _ hL
  exact fun hc => hC (hc.trans (trim_within _))

theorem normalizeParserCore_no_email (x : Str)
    (hp : ¬ ("Phone:".data) <:+: replaceAll ("\r".data) [] x)
    (he : ¬ ("Email:".data) <:+: replaceAll ("\r".data) [] x) :
    ¬ ("Email:".data) <:+: normalizeParserCore x := by
  rw [normalizeParserCore_eq_of_no_labels x hp he]
  have hB : ¬ ("Email:".data) <:+:
      replaceAll ("Bachelorof".data) ("Bachelor of".data) (replaceAll ("\r".data) [] x) :=
    replaceAll_no_occ_cross _ _ _ (by decide) (by decide) (by decide) (by decide)
      (by decide) (by decide) _ he
  have hL : ¬ ("Email:".data) <:+:
      replaceAllCI ("linkedln:".data) ("LinkedIn:".data)
        (replaceAll ("Bachelorof".data) ("Bachelor of".data)
          (replaceAll ("\r".data) [] x)) :=
    replaceAllCI_no_occ_cross _ _ _ (by decide) (by decide) (by decide) (by decide)
      (by decide) (by decide) _ hB
  have hC := collapse2_no_occ_pres _ (by decide) (by decide) _ hL
  exact fun hc => hC (hc.trans (trim_within _))

theorem normalizeParserCore_no_linkedln (x : Str)
    (hp : ¬ ("Phone:".data) <:+: replaceAll ("\r".data) [] x)
    (he : ¬ ("Email:".data) <:+: replaceAll ("\r".data) [] x) :
    ¬ ("linkedln:".data) <:+: (normalizeParserCore x).map Char.toLower := by
  rw [normalizeParserCore_eq_of_no_labels x hp he]
  have hLmap : ¬ ("linkedln:".data) <:+:
      (replaceAllCI ("linkedln:".data) ("LinkedIn:".data)
        (replaceAll ("Bachelorof".data) ("Bachelor of".data)
          (replaceAll ("\r".data) [] x))).map Char.toLower := by
    rw [replaceAllCI_map_toLower]
    have : ("LinkedIn:".data).map Char.toLower = "linkedin:".data := by decide
    rw [this]
    exact replaceAll_no_occ_self _ _ (by decide) (by decide) (by decide) (by decide)
      (by decide) _
  have hC := collapse2_no_occ_pres_map _ (by decide) (by decide) _ hLmap
  intro hc
  exact hC (hc.trans (((trim_within _).map Char.toLower)))

theorem normalizeParserCore_no_doublenl (x : Str) :
    ¬ ("\n\n".data) <:+: normalizeParserCore x := by
  unfold normalizeParserCore
  exact fun hc => collapse2_no_double _ (hc.trans (trim_within _))

theorem normalizeParserCore_trim_fix (x : Str) :
    trim (normalizeParserCore x) = normalizeParserCore x := by
  unfold normalizeParserCore
  exact trim_idem _

/-! ### The C1 theorems -/

/-- C1 counterexample: the `Phone:` spacing rule inserts a space after the
label on every pass, so normalization is not idempotent: on `"aPhone:b"`
the second pass differs from the first. -/
theorem c1_counterexample :
    normalizeParser (normalizeParser ("aPhone:b".data)) ≠
      normalizeParser ("aPhone:b".data) := by decide

/-- C1 (amended): the parser's normalizer is idempotent on every input in
which, after carriage-return stripping, neither `Phone:` nor `Email:`
occurs (the label-spacing rules are what break idempotence; all other
stages are jointly idempotent). -/
theorem c1_idempotent_amended (x : Str)
    (hp : ¬ ("Phone:".data) <:+: replaceAll ("\r".data) [] x)
    (he : ¬ ("Email:".data) <:+: replaceAll ("\r".data) [] x) :
    normalizeParser (normalizeParser x) = normalizeParser x := by
  unfold normalizeParser
  by_cases hx : x = []
  · simp [hx]
  · rw [if_neg hx]
    by_cases hy : normalizeParserCore x = []
    · rw [hy]
      simp
    · rw [if_neg hy]
      have hcr : replaceAll ("\r".data) [] (normalizeParserCore x) =
          normalizeParserCore x :=
        replaceAll_noop_of_no_occ _ _ _
          (fun hc => normalizeParserCore_no_cr x hp he ((singleton_infix_iff _ _).mp hc))
      have hbach : replaceAll ("Bachelorof".data) ("Bachelor of".data)
          (normalizeParserCore x) = normalizeParserCore x :=
        replaceAll_noop_of_no_occ _ _ _ (normalizeParserCore_no_bach x hp he)
      have hphone : replaceAll ("Phone:".data) ("\nPhone: ".data)
          (normalizeParserCore x) = normalizeParserCore x :=
        replaceAll_noop_of_no_occ _ _ _ (normalizeParserCore_no_phone x hp he)
      have hemail : replaceAll ("Email:".data) (" Email: ".data)
          (normalizeParserCore x) = normalizeParserCore x :=
        replaceAll_noop_of_no_occ _ _ _ (normalizeParserCore_no_email x hp he)
      have hlink : replaceAllCI ("linkedln:".data) ("LinkedIn:".data)
          (normalizeParserCore x) = normalizeParserCore x :=
        replaceAllCI_noop_of_no_occ _ _ _ (normalizeParserCore_no_linkedln x hp he)
      have hcol : collapse2 (normalizeParserCore x) = normalizeParserCore x :=
        collapse2_fix _ (normalizeParserCore_no_doublenl x)
      show normalizeParserCore (normalizeParserCore x) = normalizeParserCore x
      conv_lhs => rw [normalizeParserCore]
      rw [hcr, hbach, hphone, hemail, hlink, hcol]
      exact normalizeParserCore_trim_fix x

/-- Witness for C1 (amended) at a concrete input. -/
theorem c1_idempotent_amended_witness :
    (¬ ("Phone:".data) <:+: replaceAll ("\r".data) [] ("John Smith\nskills".data) ∧
     ¬ ("Email:".data) <:+: replaceAll ("\r".data) [] ("John Smith\nskills".data)) ∧
    normalizeParser (normalizeParser ("John Smith\nskills".data)) =
      normalizeParser ("John Smith\nskills".data) :=
  ⟨⟨by decide, by decide⟩,
    c1_idempotent_amended ("John Smith\nskills".data) (by decide) (by decide)⟩

end AiResume
